import Mathlib

/-!
# Verification of the transrangers range-processing combinators

A shallow embedding of `include/transrangers.hpp`: push-based, resumable
range combinators (`all`, `filter`, `transform`, `take`, `concat`, `unique`,
`join`, `ranger_join`).  A ranger is a stateful callable that drives a sink
over cursors and returns a completion flag; here the mutable closure state of
every combinator is reified in the inductive type `Proc`, and an invocation
is the function `run`, which threads an explicit sink state.

Sinks are modelled as `α → τ → Bool × τ`: the C++ sink receives a cursor and
returns a verdict, and may carry mutable state of its own (`τ`).  Delivering
a cursor is modelled as passing the dereferenced element value, since every
observable property below is about delivered element values.
-/

set_option autoImplicit false
set_option maxHeartbeats 1000000

universe u

namespace Transrangers

/--
Pipeline state.  Each constructor carries exactly the mutable closure state
of the corresponding combinator in the C++ source:

* `all S i`: the source adaptor over sequence `S`; `i` is the stored
  position `first` (`last` is the end of `S`).  The owning (`all_copy`) and
  borrowing variants have identical invocation behaviour, both keep the
  sequence and a position.
* `filter pred r`: no state of its own.
* `transform f r`: no state of its own; the composite cursor's dereference
  is `f` applied to the wrapped element (delivery passes `f x` directly).
* `take n r`: remaining quota `n` (an `int` in the source).
* `cnil` / `ccons cont r next`: variadic `concat` is right-nested in the
  source (`next=concat(rgrs...)`), with a per-stage `cont` flag, initially
  `false`; `cnil` is the empty `concat()`, which ignores its sink.
* `unique beq st p r`: the `start` flag and the remembered cursor `p`
  (`none` models the default-constructed cursor, which the source never
  dereferences; the comparison `*p==*q` is the element equality `beq`).
-/
inductive Proc : Type u → Type (u + 1) where
  | all : {α : Type u} → List α → Nat → Proc α
  | filter : {α : Type u} → (α → Bool) → Proc α → Proc α
  | transform : {α β : Type u} → (β → α) → Proc β → Proc α
  | take : {α : Type u} → Int → Proc α → Proc α
  | cnil : {α : Type u} → Proc α
  | ccons : {α : Type u} → Bool → Proc α → Proc α → Proc α
  | unique : {α : Type u} → (α → α → Bool) → Bool → Option α → Proc α → Proc α

/-- Structural depth of a pipeline; used as fuel for `run` below. -/
def pdepth : {α : Type u} → Proc α → Nat
  | _, .all _ _ => 1
  | _, .filter _ r => pdepth r + 1
  | _, .transform _ r => pdepth r + 1
  | _, .take _ r => pdepth r + 1
  | _, .cnil => 1
  | _, .ccons _ r next => max (pdepth r) (pdepth next) + 1
  | _, .unique _ _ _ r => pdepth r + 1

theorem pdepth_pos {α : Type u} (s : Proc α) : 0 < pdepth s := by
  cases s <;> simp [pdepth]

/-- The intercepting sink of `filter`: `pred(*p)?dst(p):true`. -/
def fSink {α τ : Type u} (pred : α → Bool) (dst : α → τ → Bool × τ) :
    α → τ → Bool × τ :=
  fun x u => if pred x then dst x u else (true, u)

/-- The intercepting sink of `transform`: `dst(cursor{p,&f})`, where the
cursor dereferences to `f` of the wrapped element. -/
def mSink {α β τ : Type u} (f : β → α) (dst : α → τ → Bool × τ) :
    β → τ → Bool × τ :=
  fun x u => dst (f x) u

/-- The intercepting sink of `take`: `--n; return dst(p)&&(n!=0);`.  The
quota is threaded as the second sink-state component. -/
def qSink {α τ : Type u} (dst : α → τ → Bool × τ) :
    α → τ × Int → Bool × (τ × Int) :=
  fun x u =>
    let m := u.2 - 1
    let d := dst x u.1
    (d.1 && decide (m ≠ 0), (d.2, m))

/-- The one-shot capture sink of `unique`'s first invocation:
`p=q; cont=dst(q); return false;`.  State: sink state, `cont`, `p`. -/
def cSink {α τ : Type u} (dst : α → τ → Bool × τ) :
    α → τ × Bool × Option α → Bool × (τ × Bool × Option α) :=
  fun q u =>
    let d := dst q u.1
    (false, (d.2, d.1, some q))

/-- The steady-state sink of `unique`:
`if(*p==*q){p=q;return true;}else{p=q;return dst(q);}`.  A `none` remembered
cursor (default-constructed, never built by the source code's own runs)
is modelled as "no previous element": forward unconditionally. -/
def uSink {α τ : Type u} (beq : α → α → Bool) (dst : α → τ → Bool × τ) :
    α → τ × Option α → Bool × (τ × Option α) :=
  fun q u =>
    match u.2 with
    | some pv =>
      if beq pv q then (true, (u.1, some q))
      else
        let d := dst q u.1
        (d.1, (d.2, some q))
    | none =>
      let d := dst q u.1
      (d.1, (d.2, some q))

/-- The loop of `all`'s invocation: `while(it!=last)if(!dst(it++)){...}`.
Arguments: remaining elements, current position, sink, sink state.
Returns the completion flag, the final stored position, and the sink state.
On a refusal the stored position is one past the refused element. -/
def allGo {α τ : Type u} : List α → Nat → (α → τ → Bool × τ) → τ →
    Bool × Nat × τ
  | [], i, _, t => (true, i, t)
  | x :: xs, i, dst, t =>
    let d := dst x t
    if d.1 then allGo xs (i + 1) dst d.2 else (false, i + 1, d.2)

/-- Fueled interpreter for one invocation of a pipeline.  The fuel only
serves to justify the recursion through `unique`'s first invocation, which
re-drives the already-driven wrapped ranger; `run` below instantiates the
fuel with `pdepth` and the equation lemmas `run_all` … `run_unique` recover
the natural recursion. -/
def runA : Nat → {α τ : Type u} → Proc α → (α → τ → Bool × τ) → τ →
    Bool × Proc α × τ
  | 0 => fun s _ t => (true, s, t)
  | f + 1 => fun s dst t =>
    match s with
    | .all S i =>
      let o := allGo (S.drop i) i dst t
      (o.1, .all S o.2.1, o.2.2)
    | .filter pred r =>
      let o := runA f r (fSink pred dst) t
      (o.1, .filter pred o.2.1, o.2.2)
    | .transform g r =>
      let o := runA f r (mSink g dst) t
      (o.1, .transform g o.2.1, o.2.2)
    | .take n r =>
      if n = 0 then (true, .take n r, t)
      else
        let o := runA f r (qSink dst) (t, n)
        (o.1 || decide (o.2.2.2 = 0), .take o.2.2.2 o.2.1, o.2.2.1)
    | .cnil => (true, .cnil, t)
    | .ccons cont r next =>
      if cont then
        let o := runA f next dst t
        (o.1, .ccons true r o.2.1, o.2.2)
      else
        let o := runA f r dst t
        if o.1 then
          let o2 := runA f next dst o.2.2
          (o2.1, .ccons true o.2.1 o2.2.1, o2.2.2)
        else (false, .ccons false o.2.1 next, o.2.2)
    | .unique beq st p r =>
      if st then
        let o := runA f r (cSink dst) (t, false, p)
        if o.1 then (true, .unique beq false o.2.2.2.2 o.2.1, o.2.2.1)
        else if o.2.2.2.1 then
          let o2 := runA f o.2.1 (uSink beq dst) (o.2.2.1, o.2.2.2.2)
          (o2.1, .unique beq false o2.2.2.2 o2.2.1, o2.2.2.1)
        else (false, .unique beq false o.2.2.2.2 o.2.1, o.2.2.1)
      else
        let o2 := runA f r (uSink beq dst) (t, p)
        (o2.1, .unique beq false o2.2.2.2 o2.2.1, o2.2.2.1)

theorem runA_depth :
    ∀ (f : Nat) {α τ : Type u} (s : Proc α) (dst : α → τ → Bool × τ) (t : τ),
      pdepth s ≤ f → pdepth (runA f s dst t).2.1 = pdepth s := by
  intro f
  induction f with
  | zero =>
    intro α τ s dst t h
    exact absurd (Nat.lt_of_lt_of_le (pdepth_pos s) h) (by simp)
  | succ f ih =>
    intro α τ s dst t h
    cases s with
    | all S i => simp [runA, pdepth]
    | filter pred r =>
      have hr : pdepth r ≤ f := by
        have := h; simp [pdepth] at this; omega
      simp [runA, pdepth, ih r _ _ hr]
    | transform g r =>
      have hr : pdepth r ≤ f := by
        have := h; simp [pdepth] at this; omega
      simp [runA, pdepth, ih r _ _ hr]
    | take n r =>
      have hr : pdepth r ≤ f := by
        have := h; simp [pdepth] at this; omega
      by_cases hn : n = 0
      · simp [runA, hn, pdepth]
      · simp [runA, hn, pdepth, ih r _ _ hr]
    | cnil => simp [runA, pdepth]
    | ccons cont r next =>
      have hr : pdepth r ≤ f := by
        have := h; simp [pdepth] at this; omega
      have hx : pdepth next ≤ f := by
        have := h; simp [pdepth] at this; omega
      by_cases hc : cont
      · simp [runA, hc, pdepth, ih next _ _ hx]
      · by_cases hb : (runA f r dst t).1
        · simp [runA, hc, hb, pdepth, ih r _ _ hr, ih next _ _ hx]
        · simp [runA, hc, hb, pdepth, ih r _ _ hr]
    | unique beq st p r =>
      have hr : pdepth r ≤ f := by
        have := h; simp [pdepth] at this; omega
      by_cases hs : st
      · by_cases hb : (runA f r (cSink dst) (t, false, p)).1
        · simp [runA, hs, hb, pdepth, ih r _ _ hr]
        · by_cases hcont : (runA f r (cSink dst) (t, false, p)).2.2.2.1
          · have hdep : pdepth (runA f r (cSink dst) (t, false, p)).2.1 ≤ f := by
              rw [ih r _ _ hr]; exact hr
            simp [runA, hs, hb, hcont, pdepth, ih _ _ _ hdep, ih r _ _ hr]
          · simp [runA, hs, hb, hcont, pdepth, ih r _ _ hr]
      · simp [runA, hs, pdepth, ih r _ _ hr]

theorem runA_fuel :
    ∀ (f : Nat) {α τ : Type u} (s : Proc α) (dst : α → τ → Bool × τ) (t : τ),
      pdepth s ≤ f → runA f s dst t = runA (pdepth s) s dst t := by
  intro f
  induction f using Nat.strong_induction_on with
  | _ f ih =>
    intro α τ s dst t h
    obtain ⟨f, rfl⟩ : ∃ f', f = f' + 1 := by
      cases f with
      | zero => exact absurd (Nat.lt_of_lt_of_le (pdepth_pos s) h) (by simp)
      | succ f => exact ⟨f, rfl⟩
    have hf : f < f + 1 := Nat.lt_succ_self f
    cases s with
    | all S i => simp [runA, pdepth]
    | filter pred r =>
      have hr : pdepth r ≤ f := by
        have := h; simp only [pdepth] at this; omega
      show _ = runA (pdepth r + 1) _ _ _
      simp only [runA]
      rw [ih f hf r _ _ hr, ih (pdepth r) (by omega) r _ _ (Nat.le_refl _)]
    | transform g r =>
      have hr : pdepth r ≤ f := by
        have := h; simp only [pdepth] at this; omega
      show _ = runA (pdepth r + 1) _ _ _
      simp only [runA]
      rw [ih f hf r _ _ hr, ih (pdepth r) (by omega) r _ _ (Nat.le_refl _)]
    | take n r =>
      have hr : pdepth r ≤ f := by
        have := h; simp only [pdepth] at this; omega
      show _ = runA (pdepth r + 1) _ _ _
      simp only [runA]
      rw [ih f hf r _ _ hr, ih (pdepth r) (by omega) r _ _ (Nat.le_refl _)]
    | cnil => simp [runA, pdepth]
    | ccons cont r next =>
      have hr : pdepth r ≤ f := by
        have := h; simp only [pdepth] at this; omega
      have hx : pdepth next ≤ f := by
        have := h; simp only [pdepth] at this; omega
      have hm : max (pdepth r) (pdepth next) ≤ f := by
        have := h; simp only [pdepth] at this; omega
      have er : runA f r dst t = runA (max (pdepth r) (pdepth next)) r dst t := by
        rw [ih f hf r dst t hr,
          ih (max (pdepth r) (pdepth next)) (by omega) r dst t (Nat.le_max_left _ _)]
      have ex : ∀ t', runA f next dst t'
          = runA (max (pdepth r) (pdepth next)) next dst t' := by
        intro t'
        rw [ih f hf next dst t' hx,
          ih (max (pdepth r) (pdepth next)) (by omega) next dst t'
            (Nat.le_max_right _ _)]
      show _ = runA (max (pdepth r) (pdepth next) + 1) _ _ _
      simp only [runA]
      rw [er, ex, ex]
    | unique beq st p r =>
      have hr : pdepth r ≤ f := by
        have := h; simp only [pdepth] at this; omega
      have e1 : runA f r (cSink dst) (t, false, p)
          = runA (pdepth r) r (cSink dst) (t, false, p) := ih f hf r _ _ hr
      have e2 : runA f r (uSink beq dst) (t, p)
          = runA (pdepth r) r (uSink beq dst) (t, p) := ih f hf r _ _ hr
      have hdo : pdepth (runA (pdepth r) r (cSink dst) (t, false, p)).2.1
          = pdepth r := runA_depth _ _ _ _ (Nat.le_refl _)
      have e3 : ∀ t', runA f (runA (pdepth r) r (cSink dst) (t, false, p)).2.1
            (uSink beq dst) t'
          = runA (pdepth r) (runA (pdepth r) r (cSink dst) (t, false, p)).2.1
            (uSink beq dst) t' := by
        intro t'
        rw [ih f hf _ _ t' (by rw [hdo]; exact hr), hdo]
      show _ = runA (pdepth r + 1) _ _ _
      simp only [runA]
      rw [e1, e2, e3]

/-- One invocation of a pipeline: drive it with sink `dst` in sink state `t`;
returns the completion flag, the updated pipeline state, and the final sink
state. -/
def run {α τ : Type u} (s : Proc α) (dst : α → τ → Bool × τ) (t : τ) :
    Bool × Proc α × τ :=
  runA (pdepth s) s dst t

theorem run_pdepth {α τ : Type u} (s : Proc α) (dst : α → τ → Bool × τ)
    (t : τ) : pdepth (run s dst t).2.1 = pdepth s :=
  runA_depth _ _ _ _ (Nat.le_refl _)

theorem run_all {α τ : Type u} (S : List α) (i : Nat)
    (dst : α → τ → Bool × τ) (t : τ) :
    run (Proc.all S i) dst t =
      ((allGo (S.drop i) i dst t).1, Proc.all S (allGo (S.drop i) i dst t).2.1,
        (allGo (S.drop i) i dst t).2.2) := rfl

theorem run_filter {α τ : Type u} (pred : α → Bool) (r : Proc α)
    (dst : α → τ → Bool × τ) (t : τ) :
    run (Proc.filter pred r) dst t =
      ((run r (fSink pred dst) t).1,
        Proc.filter pred (run r (fSink pred dst) t).2.1,
        (run r (fSink pred dst) t).2.2) := rfl

theorem run_transform {α β τ : Type u} (g : β → α) (r : Proc β)
    (dst : α → τ → Bool × τ) (t : τ) :
    run (Proc.transform g r) dst t =
      ((run r (mSink g dst) t).1,
        Proc.transform g (run r (mSink g dst) t).2.1,
        (run r (mSink g dst) t).2.2) := rfl

theorem run_take {α τ : Type u} (n : Int) (r : Proc α)
    (dst : α → τ → Bool × τ) (t : τ) :
    run (Proc.take n r) dst t =
      if n = 0 then (true, Proc.take n r, t)
      else
        ((run r (qSink dst) (t, n)).1
            || decide ((run r (qSink dst) (t, n)).2.2.2 = 0),
          Proc.take (run r (qSink dst) (t, n)).2.2.2
            (run r (qSink dst) (t, n)).2.1,
          (run r (qSink dst) (t, n)).2.2.1) := rfl

theorem run_cnil {α τ : Type u} (dst : α → τ → Bool × τ) (t : τ) :
    run (Proc.cnil) dst t = (true, Proc.cnil (α := α), t) := rfl

theorem run_ccons {α τ : Type u} (cont : Bool) (r next : Proc α)
    (dst : α → τ → Bool × τ) (t : τ) :
    run (Proc.ccons cont r next) dst t =
      if cont then
        ((run next dst t).1, Proc.ccons true r (run next dst t).2.1,
          (run next dst t).2.2)
      else
        if (run r dst t).1 then
          ((run next dst (run r dst t).2.2).1,
            Proc.ccons true (run r dst t).2.1
              (run next dst (run r dst t).2.2).2.1,
            (run next dst (run r dst t).2.2).2.2)
        else
          (false, Proc.ccons false (run r dst t).2.1 next, (run r dst t).2.2) := by
  show runA (max (pdepth r) (pdepth next) + 1) _ _ _ = _
  simp only [runA, run]
  rw [runA_fuel (max (pdepth r) (pdepth next)) r dst t (Nat.le_max_left _ _)]
  rw [runA_fuel (max (pdepth r) (pdepth next)) next dst t (Nat.le_max_right _ _)]
  rw [runA_fuel (max (pdepth r) (pdepth next)) next dst _ (Nat.le_max_right _ _)]

theorem run_unique_start {α τ : Type u} (beq : α → α → Bool) (p : Option α)
    (r : Proc α) (dst : α → τ → Bool × τ) (t : τ) :
    run (Proc.unique beq true p r) dst t =
      if (run r (cSink dst) (t, false, p)).1 then
        (true,
          Proc.unique beq false (run r (cSink dst) (t, false, p)).2.2.2.2
            (run r (cSink dst) (t, false, p)).2.1,
          (run r (cSink dst) (t, false, p)).2.2.1)
      else if (run r (cSink dst) (t, false, p)).2.2.2.1 then
        ((run (run r (cSink dst) (t, false, p)).2.1 (uSink beq dst)
            ((run r (cSink dst) (t, false, p)).2.2.1,
              (run r (cSink dst) (t, false, p)).2.2.2.2)).1,
          Proc.unique beq false
            (run (run r (cSink dst) (t, false, p)).2.1 (uSink beq dst)
              ((run r (cSink dst) (t, false, p)).2.2.1,
                (run r (cSink dst) (t, false, p)).2.2.2.2)).2.2.2
            (run (run r (cSink dst) (t, false, p)).2.1 (uSink beq dst)
              ((run r (cSink dst) (t, false, p)).2.2.1,
                (run r (cSink dst) (t, false, p)).2.2.2.2)).2.1,
          (run (run r (cSink dst) (t, false, p)).2.1 (uSink beq dst)
            ((run r (cSink dst) (t, false, p)).2.2.1,
              (run r (cSink dst) (t, false, p)).2.2.2.2)).2.2.1)
      else
        (false,
          Proc.unique beq false (run r (cSink dst) (t, false, p)).2.2.2.2
            (run r (cSink dst) (t, false, p)).2.1,
          (run r (cSink dst) (t, false, p)).2.2.1) := by
  show runA (pdepth r + 1) _ _ _ = _
  simp only [runA, run]
  rw [runA_depth (pdepth r) r _ _ (Nat.le_refl _)]
  simp

theorem run_unique_go {α τ : Type u} (beq : α → α → Bool) (p : Option α)
    (r : Proc α) (dst : α → τ → Bool × τ) (t : τ) :
    run (Proc.unique beq false p r) dst t =
      ((run r (uSink beq dst) (t, p)).1,
        Proc.unique beq false (run r (uSink beq dst) (t, p)).2.2.2
          (run r (uSink beq dst) (t, p)).2.1,
        (run r (uSink beq dst) (t, p)).2.2.1) := rfl

/-- Last-seen adjacent deduplication, the eager equivalent of `unique`:
given the previously seen element (if any), drop each element equal to the
one seen just before it.  Matches the source's `p=q` reassignment on every
element, delivered or skipped. -/
def dedupAdj {α : Type u} (beq : α → α → Bool) : Option α → List α → List α
  | _, [] => []
  | p, x :: xs =>
    match p with
    | some pv =>
      if beq pv x then dedupAdj beq (some x) xs
      else x :: dedupAdj beq (some x) xs
    | none => x :: dedupAdj beq (some x) xs

/-- Eager denotation of a pipeline state: the elements it still has to
deliver, computed by the direct composed operation on the source sequences
(`List.filter`, `List.map`, `List.take`, append, adjacent deduplication). -/
def sem : {α : Type u} → Proc α → List α
  | _, .all S i => S.drop i
  | _, .filter pred r => (sem r).filter pred
  | _, .transform f r => (sem r).map f
  | _, .take n r => if n = 0 then [] else if n < 0 then sem r else (sem r).take n.toNat
  | _, .cnil => []
  | _, .ccons cont r next => (if cont then [] else sem r) ++ sem next
  | _, .unique beq st p r => dedupAdj beq (if st then none else p) (sem r)

/-- Structurally exhausted: an invocation delivers nothing, touches nothing
and returns `true`. -/
def exh : {α : Type u} → Proc α → Bool
  | _, .all S i => decide (S.length ≤ i)
  | _, .filter _ r => exh r
  | _, .transform _ r => exh r
  | _, .take n r => decide (n = 0) || exh r
  | _, .cnil => true
  | _, .ccons cont r next => (cont || exh r) && exh next
  | _, .unique _ _ _ r => exh r

/-- `take`-free pipelines.  These are exactly the combinator states whose
invocation follows the sink's verdicts canonically: they stop delivering at
a refusal and report `true` only on genuine exhaustion.  (`take` breaks
this: when its quota reaches zero on the very element the sink refused, it
reports `true`, swallowing the refusal.) -/
def honest : {α : Type u} → Proc α → Bool
  | _, .all _ _ => true
  | _, .filter _ r => honest r
  | _, .transform _ r => honest r
  | _, .take _ _ => false
  | _, .cnil => true
  | _, .ccons _ r next => honest r && honest next
  | _, .unique _ _ _ r => honest r

/-- Pipelines whose delivered elements always form a prefix of the eager
denotation: `take` may appear under `filter`/`transform`/`take`, but the
stages of a concatenation and the ranger wrapped by `unique` must be
`take`-free, because those combinators keep driving within one invocation
after an inner `true` and would push elements into a sink that has already
refused if an inner `take` converted the refusal into `true`. -/
def tame : {α : Type u} → Proc α → Bool
  | _, .filter _ r => tame r
  | _, .transform _ r => tame r
  | _, .take _ r => tame r
  | _, .ccons _ r next => honest r && honest next
  | _, .unique _ _ _ r => honest r
  | _, s => honest s

/-- Canonical list-driving: feed the elements of a list to a sink in order,
stopping right after the first refusal; returns the completion flag, the
unprocessed remainder, and the final sink state. -/
def drive {α τ : Type u} (dst : α → τ → Bool × τ) : List α → τ →
    Bool × List α × τ
  | [], t => (true, [], t)
  | x :: xs, t =>
    let d := dst x t
    if d.1 then drive dst xs d.2 else (false, xs, d.2)

theorem drive_nil {α τ : Type u} (dst : α → τ → Bool × τ) (t : τ) :
    drive dst [] t = (true, [], t) := rfl

theorem drive_cons {α τ : Type u} (dst : α → τ → Bool × τ) (x : α)
    (xs : List α) (t : τ) :
    drive dst (x :: xs) t =
      if (dst x t).1 then drive dst xs (dst x t).2
      else (false, xs, (dst x t).2) := rfl

/-- The remainder left by `drive` is a suffix reached by dropping the
processed elements. -/
theorem drive_rest {α τ : Type u} (dst : α → τ → Bool × τ) :
    ∀ (l : List α) (t : τ), ∃ k ≤ l.length,
      (drive dst l t).2.1 = l.drop k ∧
      ((drive dst l t).1 = true → k = l.length) := by
  intro l
  induction l with
  | nil => intro t; exact ⟨0, by simp, by simp [drive_nil]⟩
  | cons x xs ih =>
    intro t
    by_cases h : (dst x t).1
    · obtain ⟨k, hk, hrest, hflag⟩ := ih (dst x t).2
      refine ⟨k + 1, by simpa using hk, ?_, ?_⟩
      · simpa [drive_cons, h] using hrest
      · intro hf
        simp only [drive_cons, h, if_true] at hf
        simp [hflag hf]
    · refine ⟨1, by simp, ?_, ?_⟩
      · simp [drive_cons, h]
      · intro hf; simp [drive_cons, h] at hf

/-- Final sink state after feeding a whole list unconditionally. -/
def logFold {α τ : Type u} (dst : α → τ → Bool × τ) : List α → τ → τ
  | [], t => t
  | x :: xs, t => logFold dst xs (dst x t).2

theorem drive_true {α τ : Type u} (dst : α → τ → Bool × τ)
    (h : ∀ x u, (dst x u).1 = true) :
    ∀ (l : List α) (t : τ), drive dst l t = (true, [], logFold dst l t) := by
  intro l
  induction l with
  | nil => intro t; rfl
  | cons x xs ih => intro t; simp [drive_cons, h, ih, logFold]

theorem drive_append {α τ : Type u} (dst : α → τ → Bool × τ) :
    ∀ (l₁ l₂ : List α) (t : τ),
      drive dst (l₁ ++ l₂) t =
        if (drive dst l₁ t).1 then drive dst l₂ (drive dst l₁ t).2.2
        else (false, (drive dst l₁ t).2.1 ++ l₂, (drive dst l₁ t).2.2) := by
  intro l₁
  induction l₁ with
  | nil => intro l₂ t; simp [drive_nil]
  | cons x xs ih =>
    intro l₂ t
    by_cases h : (dst x t).1
    · simp [drive_cons, h, ih]
    · simp [drive_cons, h]

/-- `filter`'s intercepting sink drives the wrapped elements exactly as the
outer sink drives the filtered list. -/
theorem drive_fSink {α τ : Type u} (pred : α → Bool) (dst : α → τ → Bool × τ) :
    ∀ (l : List α) (t : τ),
      (drive (fSink pred dst) l t).1 = (drive dst (l.filter pred) t).1 ∧
      (drive (fSink pred dst) l t).2.2 = (drive dst (l.filter pred) t).2.2 ∧
      ((drive (fSink pred dst) l t).2.1).filter pred
        = (drive dst (l.filter pred) t).2.1 := by
  intro l
  induction l with
  | nil => intro t; simp [drive_nil]
  | cons x xs ih =>
    intro t
    by_cases hp : pred x
    · by_cases hd : (dst x t).1
      · simpa [drive_cons, fSink, hp, hd] using ih (dst x t).2
      · simp [drive_cons, fSink, hp, hd]
    · simpa [drive_cons, fSink, hp] using ih t

/-- `transform`'s intercepting sink drives the wrapped elements exactly as
the outer sink drives the mapped list. -/
theorem drive_mSink {α β τ : Type u} (g : β → α) (dst : α → τ → Bool × τ) :
    ∀ (l : List β) (t : τ),
      (drive (mSink g dst) l t).1 = (drive dst (l.map g) t).1 ∧
      (drive (mSink g dst) l t).2.2 = (drive dst (l.map g) t).2.2 ∧
      ((drive (mSink g dst) l t).2.1).map g = (drive dst (l.map g) t).2.1 := by
  intro l
  induction l with
  | nil => intro t; simp [drive_nil]
  | cons x xs ih =>
    intro t
    by_cases hd : (dst (g x) t).1
    · simpa [drive_cons, mSink, hd] using ih (dst (g x) t).2
    · simp [drive_cons, mSink, hd]

/-- `unique`'s steady-state sink drives the wrapped elements exactly as the
outer sink drives the deduplicated list, threading the last-seen element. -/
theorem drive_uSink {α τ : Type u} (beq : α → α → Bool)
    (dst : α → τ → Bool × τ) :
    ∀ (l : List α) (p : Option α) (t : τ),
      (drive (uSink beq dst) l (t, p)).1
        = (drive dst (dedupAdj beq p l) t).1 ∧
      (drive (uSink beq dst) l (t, p)).2.2.1
        = (drive dst (dedupAdj beq p l) t).2.2 ∧
      dedupAdj beq (drive (uSink beq dst) l (t, p)).2.2.2
          (drive (uSink beq dst) l (t, p)).2.1
        = (drive dst (dedupAdj beq p l) t).2.1 := by
  intro l
  induction l with
  | nil => intro p t; simp [drive_nil, dedupAdj]
  | cons x xs ih =>
    intro p t
    match p with
    | some pv =>
      by_cases he : beq pv x
      · simpa [drive_cons, uSink, he, dedupAdj] using ih (some x) t
      · by_cases hd : (dst x t).1
        · simpa [drive_cons, uSink, he, hd, dedupAdj] using ih (some x) (dst x t).2
        · simp [drive_cons, uSink, he, hd, dedupAdj]
    | none =>
      by_cases hd : (dst x t).1
      · simpa [drive_cons, uSink, hd, dedupAdj] using ih (some x) (dst x t).2
      · simp [drive_cons, uSink, hd, dedupAdj]

/-- `unique`'s one-shot capture sink: an empty wrapped range completes; a
nonempty one stops after recording and forwarding exactly the head. -/
theorem drive_cSink_nil {α τ : Type u} (dst : α → τ → Bool × τ) (c : Bool)
    (p : Option α) (t : τ) :
    drive (cSink dst) [] (t, c, p) = (true, [], (t, c, p)) := rfl

theorem drive_cSink_cons {α τ : Type u} (dst : α → τ → Bool × τ) (c : Bool)
    (p : Option α) (x : α) (xs : List α) (t : τ) :
    drive (cSink dst) (x :: xs) (t, c, p)
      = (false, xs, ((dst x t).2, (dst x t).1, some x)) := rfl

/-- The loop of `all` is canonical driving plus position bookkeeping. -/
theorem allGo_drive {α τ : Type u} (dst : α → τ → Bool × τ) :
    ∀ (l : List α) (i : Nat) (t : τ),
      allGo l i dst t =
        ((drive dst l t).1, i + (l.length - (drive dst l t).2.1.length),
          (drive dst l t).2.2) ∧
      (drive dst l t).2.1.length ≤ l.length := by
  intro l
  induction l with
  | nil => intro i t; simp [allGo, drive_nil]
  | cons x xs ih =>
    intro i t
    by_cases hd : (dst x t).1
    · obtain ⟨h1, h2⟩ := ih (i + 1) (dst x t).2
      constructor
      · rw [show allGo (x :: xs) i dst t = allGo xs (i + 1) dst (dst x t).2 by
          simp [allGo, hd]]
        rw [h1]
        simp only [drive_cons, hd, if_true, List.length_cons]
        have harith : i + 1 + (xs.length - (drive dst xs (dst x t).2).2.1.length)
            = i + (xs.length + 1 - (drive dst xs (dst x t).2).2.1.length) := by
          omega
        rw [harith]
      · simp only [drive_cons, hd, if_true]
        calc (drive dst xs (dst x t).2).2.1.length ≤ xs.length := h2
          _ ≤ (x :: xs).length := by simp
    · constructor
      · simp [allGo, hd, drive_cons]
      · simp [drive_cons, hd]

/-- An exhausted pipeline state completes immediately: the invocation
returns `true`, never calls the sink, and leaves an exhausted state. -/
theorem exh_run : ∀ {α : Type u} (s : Proc α), exh s = true →
    ∀ {τ : Type u} (dst : α → τ → Bool × τ) (t : τ),
      (run s dst t).1 = true ∧ (run s dst t).2.2 = t ∧
        exh (run s dst t).2.1 = true := by
  intro α s
  induction s with
  | all S i =>
    intro h τ dst t
    have hd : S.drop i = [] := by
      simp only [exh, decide_eq_true_eq] at h
      exact List.drop_eq_nil_of_le h
    rw [run_all, hd]
    simpa [allGo, exh] using h
  | filter pred r ih =>
    intro h τ dst t
    simp only [exh] at h
    obtain ⟨h1, h2, h3⟩ := ih h (fSink pred dst) t
    rw [run_filter]
    exact ⟨h1, h2, by simpa [exh] using h3⟩
  | transform g r ih =>
    intro h τ dst t
    simp only [exh] at h
    obtain ⟨h1, h2, h3⟩ := ih h (mSink g dst) t
    rw [run_transform]
    exact ⟨h1, h2, by simpa [exh] using h3⟩
  | take n r ih =>
    intro h τ dst t
    by_cases hn : n = 0
    · rw [run_take, if_pos hn]
      exact ⟨rfl, rfl, h⟩
    · have h : exh r = true := by
        simp only [exh, Bool.or_eq_true, decide_eq_true_eq] at h
        rcases h with h | h
        · exact absurd h hn
        · exact h
      obtain ⟨h1, h2, h3⟩ := ih h (qSink dst) (t, n)
      rw [run_take, if_neg hn]
      refine ⟨by simp [h1], ?_, ?_⟩
      · rw [h2]
      · rw [h2]
        simp [exh, h3]
  | cnil =>
    intro h τ dst t
    exact ⟨rfl, rfl, rfl⟩
  | ccons cont r next ihr ihn =>
    intro h τ dst t
    simp only [exh, Bool.and_eq_true, Bool.or_eq_true] at h
    obtain ⟨hcr, hn⟩ := h
    by_cases hc : cont
    · obtain ⟨h1, h2, h3⟩ := ihn hn dst t
      rw [run_ccons, if_pos hc]
      exact ⟨h1, h2, by simp [exh, h3]⟩
    · have hr : exh r = true := by
        rcases hcr with hcr | hcr
        · exact absurd hcr (by simpa using hc)
        · exact hcr
      obtain ⟨h1, h2, h3⟩ := ihr hr dst t
      obtain ⟨g1, g2, g3⟩ := ihn hn dst (run r dst t).2.2
      rw [run_ccons, if_neg hc, if_pos h1]
      refine ⟨g1, by rw [g2, h2], ?_⟩
      simp [exh, g3]
  | unique beq st p r ih =>
    intro h τ dst t
    simp only [exh] at h
    by_cases hs : st
    · subst hs
      obtain ⟨h1, h2, h3⟩ := ih h (cSink dst) (t, false, p)
      rw [run_unique_start, if_pos h1]
      exact ⟨rfl, by rw [h2], by simpa [exh] using h3⟩
    · have hst : st = false := by simpa using hs
      subst hst
      obtain ⟨h1, h2, h3⟩ := ih h (uSink beq dst) (t, p)
      rw [run_unique_go]
      exact ⟨h1, by rw [h2], by simpa [exh] using h3⟩

/-- A `true` completion flag leaves the pipeline exhausted. -/
theorem flag_exh : ∀ (N : Nat) {α : Type u} (s : Proc α), pdepth s ≤ N →
    ∀ {τ : Type u} (dst : α → τ → Bool × τ) (t : τ),
      (run s dst t).1 = true → exh (run s dst t).2.1 = true := by
  intro N
  induction N with
  | zero =>
    intro α s h
    exact absurd (Nat.lt_of_lt_of_le (pdepth_pos s) h) (by simp)
  | succ N ih =>
    intro α s h τ dst t hf
    cases s with
    | all S i =>
      rw [run_all] at hf ⊢
      obtain ⟨hgo, hlen⟩ := allGo_drive dst (S.drop i) i t
      rw [hgo] at hf ⊢
      simp only at hf
      obtain ⟨k, hk, hrest, hkl⟩ := drive_rest dst (S.drop i) t
      have : (drive dst (S.drop i) t).2.1 = [] := by
        rw [hrest, hkl hf]
        exact List.drop_length _
      rw [this]
      simp only [exh, List.length_nil, Nat.sub_zero, decide_eq_true_eq,
        List.length_drop]
      omega
    | filter pred r =>
      have hr : pdepth r ≤ N := by simp only [pdepth] at h; omega
      rw [run_filter] at hf ⊢
      simp only at hf ⊢
      simpa [exh] using ih r hr (fSink pred dst) t hf
    | transform g r =>
      have hr : pdepth r ≤ N := by simp only [pdepth] at h; omega
      rw [run_transform] at hf ⊢
      simp only at hf ⊢
      simpa [exh] using ih r hr (mSink g dst) t hf
    | take n r =>
      have hr : pdepth r ≤ N := by simp only [pdepth] at h; omega
      by_cases hn : n = 0
      · rw [run_take, if_pos hn] at hf ⊢
        simp [exh, hn]
      · rw [run_take, if_neg hn] at hf ⊢
        simp only [Bool.or_eq_true, decide_eq_true_eq] at hf
        simp only [exh, Bool.or_eq_true, decide_eq_true_eq]
        rcases hf with hf | hf
        · exact Or.inr (ih r hr (qSink dst) (t, n) hf)
        · exact Or.inl hf
    | cnil => simp [run_cnil, exh]
    | ccons cont r next =>
      have hr : pdepth r ≤ N := by simp only [pdepth] at h; omega
      have hx : pdepth next ≤ N := by simp only [pdepth] at h; omega
      by_cases hc : cont
      · rw [run_ccons, if_pos hc] at hf ⊢
        simp only at hf ⊢
        simp [exh, ih next hx dst t hf]
      · rw [run_ccons, if_neg hc] at hf ⊢
        by_cases hb : (run r dst t).1
        · rw [if_pos hb] at hf ⊢
          simp only at hf ⊢
          simp [exh, ih next hx dst _ hf]
        · rw [if_neg hb] at hf
          simp at hf
    | unique beq st p r =>
      have hr : pdepth r ≤ N := by simp only [pdepth] at h; omega
      by_cases hs : st
      · subst hs
        by_cases hb : (run r (cSink dst) (t, false, p)).1
        · rw [run_unique_start, if_pos hb]
          simpa [exh] using ih r hr (cSink dst) (t, false, p) hb
        · rw [run_unique_start, if_neg hb] at hf ⊢
          by_cases hcont : (run r (cSink dst) (t, false, p)).2.2.2.1
          · rw [if_pos hcont] at hf ⊢
            simp only at hf ⊢
            have hdep : pdepth (run r (cSink dst) (t, false, p)).2.1 ≤ N := by
              rw [run_pdepth]; exact hr
            simpa [exh] using ih _ hdep (uSink beq dst) _ hf
          · rw [if_neg hcont] at hf
            simp at hf
      · have hst : st = false := by simpa using hs
        subst hst
        rw [run_unique_go] at hf ⊢
        simp only at hf ⊢
        simpa [exh] using ih r hr (uSink beq dst) (t, p) hf

/-- Canonical behaviour of `take`-free pipelines: one invocation interacts
with the sink exactly as canonical driving of the eager denotation does —
same completion flag, same final sink state — and the updated pipeline
state denotes exactly the unprocessed remainder. -/
theorem honest_run : ∀ (N : Nat) {α : Type u} (s : Proc α), pdepth s ≤ N →
    honest s = true → ∀ {τ : Type u} (dst : α → τ → Bool × τ) (t : τ),
      (run s dst t).1 = (drive dst (sem s) t).1 ∧
      (run s dst t).2.2 = (drive dst (sem s) t).2.2 ∧
      sem (run s dst t).2.1 = (drive dst (sem s) t).2.1 ∧
      honest (run s dst t).2.1 = true := by
  intro N
  induction N with
  | zero =>
    intro α s h
    exact absurd (Nat.lt_of_lt_of_le (pdepth_pos s) h) (by simp)
  | succ N ih =>
    intro α s h hh τ dst t
    cases s with
    | all S i =>
      obtain ⟨hgo, hlen⟩ := allGo_drive dst (S.drop i) i t
      obtain ⟨k, hk, hrest, -⟩ := drive_rest dst (S.drop i) t
      rw [run_all, hgo]
      have hrl : (drive dst (S.drop i) t).2.1.length = (S.drop i).length - k := by
        rw [hrest, List.length_drop]
      refine ⟨rfl, rfl, ?_, rfl⟩
      show S.drop (i + ((S.drop i).length - (drive dst (S.drop i) t).2.1.length))
          = (drive dst (S.drop i) t).2.1
      rw [hrl, hrest, Nat.sub_sub_self hk, List.drop_drop, Nat.add_comm]
    | filter pred r =>
      have hr : pdepth r ≤ N := by simp only [pdepth] at h; omega
      have hhr : honest r = true := by simpa [honest] using hh
      obtain ⟨h1, h2, h3, h4⟩ := ih r hr hhr (fSink pred dst) t
      obtain ⟨g1, g2, g3⟩ := drive_fSink pred dst (sem r) t
      rw [run_filter]
      refine ⟨h1.trans g1, h2.trans g2, ?_, by simpa [honest] using h4⟩
      show ((sem (run r (fSink pred dst) t).2.1).filter pred) = _
      rw [h3, g3]
      rfl
    | transform g r =>
      have hr : pdepth r ≤ N := by simp only [pdepth] at h; omega
      have hhr : honest r = true := by simpa [honest] using hh
      obtain ⟨h1, h2, h3, h4⟩ := ih r hr hhr (mSink g dst) t
      obtain ⟨g1, g2, g3⟩ := drive_mSink g dst (sem r) t
      rw [run_transform]
      refine ⟨h1.trans g1, h2.trans g2, ?_, by simpa [honest] using h4⟩
      show ((sem (run r (mSink g dst) t).2.1).map g) = _
      rw [h3, g3]
      rfl
    | take n r => exact absurd hh (by simp [honest])
    | cnil => exact ⟨rfl, rfl, rfl, rfl⟩
    | ccons cont r next =>
      have hr : pdepth r ≤ N := by simp only [pdepth] at h; omega
      have hx : pdepth next ≤ N := by simp only [pdepth] at h; omega
      have hhr : honest r = true := by
        simp only [honest, Bool.and_eq_true] at hh; exact hh.1
      have hhn : honest next = true := by
        simp only [honest, Bool.and_eq_true] at hh; exact hh.2
      by_cases hc : cont
      · subst hc
        obtain ⟨h1, h2, h3, h4⟩ := ih next hx hhn dst t
        rw [run_ccons, if_pos rfl]
        simp only [sem, if_true, List.nil_append]
        exact ⟨h1, h2, by simpa [sem] using h3, by simp [honest, hhr, h4]⟩
      · have hc' : cont = false := by simpa using hc
        subst hc'
        obtain ⟨h1, h2, h3, h4⟩ := ih r hr hhr dst t
        simp only [sem, if_false, Bool.false_eq_true]
        rw [run_ccons, if_neg (by simp), drive_append]
        by_cases hb : (run r dst t).1
        · rw [if_pos hb, if_pos (h1 ▸ hb), ← h2]
          obtain ⟨g1, g2, g3, g4⟩ := ih next hx hhn dst (run r dst t).2.2
          exact ⟨g1, g2, by simpa [sem] using g3, by simp [honest, h4, g4]⟩
        · have hb' : (run r dst t).1 = false := by simpa using hb
          rw [if_neg hb, if_neg (by simp [h1 ▸ hb'])]
          refine ⟨by simp [hb'], h2, ?_, by simp [honest, h4, hhn]⟩
          simp only [sem, if_false, Bool.false_eq_true]
          rw [h3]
    | unique beq st p r =>
      have hr : pdepth r ≤ N := by simp only [pdepth] at h; omega
      have hhr : honest r = true := by simpa [honest] using hh
      by_cases hs : st
      · subst hs
        obtain ⟨h1, h2, h3, h4⟩ := ih r hr hhr (cSink dst) (t, false, p)
        simp only [sem, if_true]
        rcases hsem : sem r with _ | ⟨x, xs⟩
        · rw [hsem] at h1 h2 h3
          rw [drive_cSink_nil] at h1 h2 h3
          rw [run_unique_start, if_pos (by simp [h1])]
          rw [dedupAdj, drive_nil]
          refine ⟨rfl, by simp [h2], ?_, by simpa [honest] using h4⟩
          simp only [sem]
          rw [h2]
          simp only
          rw [if_neg (by simp), h3, dedupAdj]
        · rw [hsem] at h1 h2 h3
          rw [drive_cSink_cons] at h1 h2 h3
          have hcont : (run r (cSink dst) (t, false, p)).2.2.2.1 = (dst x t).1 := by
            rw [h2]
          have hp : (run r (cSink dst) (t, false, p)).2.2.2.2 = some x := by
            rw [h2]
          have ht : (run r (cSink dst) (t, false, p)).2.2.1 = (dst x t).2 := by
            rw [h2]
          rw [run_unique_start, if_neg (by simp [h1])]
          rw [show dedupAdj beq none (x :: xs) = x :: dedupAdj beq (some x) xs
            from rfl]
          rw [drive_cons]
          by_cases hd : (dst x t).1
          · rw [if_pos (by simp [hcont, hd]), if_pos hd, ht, hp]
            have hdep : pdepth (run r (cSink dst) (t, false, p)).2.1 ≤ N := by
              rw [run_pdepth]; exact hr
            obtain ⟨g1, g2, g3, g4⟩ := ih _ hdep h4 (uSink beq dst)
              ((dst x t).2, some x)
            rw [h3] at g1 g2 g3
            obtain ⟨w1, w2, w3⟩ := drive_uSink beq dst xs (some x) (dst x t).2
            refine ⟨g1.trans w1, ?_, ?_, by simpa [honest] using g4⟩
            · exact (congrArg Prod.fst g2).trans w2
            · show dedupAdj beq (run _ (uSink beq dst) _).2.2.2
                  (sem (run _ (uSink beq dst) _).2.1) = _
              rw [g3, congrArg Prod.snd g2]
              exact w3
          · have hd' : (dst x t).1 = false := by simpa using hd
            rw [if_neg (by simp [hcont, hd']), if_neg (by simp [hd'])]
            refine ⟨rfl, by simp [ht], ?_, by simpa [honest] using h4⟩
            simp only [sem]
            rw [hp, h3]
            simp
      · have hs' : st = false := by simpa using hs
        subst hs'
        obtain ⟨h1, h2, h3, h4⟩ := ih r hr hhr (uSink beq dst) (t, p)
        obtain ⟨w1, w2, w3⟩ := drive_uSink beq dst (sem r) p t
        rw [run_unique_go]
        simp only [sem, if_false, Bool.false_eq_true]
        refine ⟨h1.trans w1, ?_, ?_, by simpa [honest] using h4⟩
        · show (run r (uSink beq dst) (t, p)).2.2.1 = _
          rw [show (run r (uSink beq dst) (t, p)).2.2.1
            = ((run r (uSink beq dst) (t, p)).2.2).1 from rfl, h2]
          exact w2
        · show dedupAdj beq (run r (uSink beq dst) (t, p)).2.2.2
              (sem (run r (uSink beq dst) (t, p)).2.1) = _
          rw [h3, show (run r (uSink beq dst) (t, p)).2.2.2
            = ((run r (uSink beq dst) (t, p)).2.2).2 from rfl, h2]
          exact w3

theorem honest_tame : ∀ {α : Type u} (s : Proc α),
    honest s = true → tame s = true := by
  intro α s
  induction s with
  | all S i => intro h; simp [tame, honest]
  | filter pred r ih => intro h; simp only [tame]; exact ih (by simpa [honest] using h)
  | transform g r ih => intro h; simp only [tame]; exact ih (by simpa [honest] using h)
  | take n r ih => intro h; exact absurd h (by simp [honest])
  | cnil => intro h; simp [tame, honest]
  | ccons cont r next ihr ihn => intro h; simpa [tame, honest] using h
  | unique beq st p r ih => intro h; simpa [tame, honest] using h

/-- Driving through `take`'s quota sink with a negative quota: the quota
never reaches zero, so the sink behaves as the plain sink; the quota keeps
decreasing. -/
theorem drive_qneg {α τ : Type u} (dst : α → τ → Bool × τ) :
    ∀ (l : List α) (t : τ) (n : Int), n < 0 →
      ∃ k : Nat, k ≤ l.length ∧
        drive (qSink dst) l (t, n) =
          ((drive dst l t).1, (drive dst l t).2.1,
            ((drive dst l t).2.2, n - k)) := by
  intro l
  induction l with
  | nil =>
    intro t n hn
    exact ⟨0, by simp, by simp [drive_nil]⟩
  | cons x xs ih =>
    intro t n hn
    have hq : qSink dst x (t, n) =
        ((dst x t).1 && decide (n - 1 ≠ 0), ((dst x t).2, n - 1)) := rfl
    by_cases hd : (dst x t).1
    · obtain ⟨k, hk, hrec⟩ := ih (dst x t).2 (n - 1) (by omega)
      refine ⟨k + 1, by simpa using hk, ?_⟩
      rw [drive_cons, drive_cons, hq]
      simp only [hd, Bool.true_and, if_pos (by simp : (true : Bool) = true)]
      rw [if_pos (by simp only [decide_eq_true_eq]; omega)]
      rw [hrec]
      have : n - 1 - (k : Int) = n - ((k : Int) + 1) := by omega
      simp [this]
    · have hd' : (dst x t).1 = false := by simpa using hd
      refine ⟨1, by simp, ?_⟩
      rw [drive_cons, drive_cons, hq, hd']
      simp

/-- Driving through `take`'s quota sink with a positive quota mirrors
canonical driving of the quota-clamped list: same sink states, the quota
counts down by the number of processed elements, and the flag picks up a
`false` exactly when the quota reaches zero on the last processed element. -/
theorem drive_qpos {α τ : Type u} (dst : α → τ → Bool × τ) :
    ∀ (l : List α) (t : τ) (n : Int), 0 < n →
      ∃ k : Nat, (k : Int) ≤ n ∧ k ≤ (l.take n.toNat).length ∧
        (drive dst (l.take n.toNat) t).2.1 = (l.take n.toNat).drop k ∧
        drive (qSink dst) l (t, n) =
          ((drive dst (l.take n.toNat) t).1 && decide (n - k ≠ 0),
            (drive dst (l.take n.toNat) t).2.1 ++ l.drop n.toNat,
            ((drive dst (l.take n.toNat) t).2.2, n - k)) ∧
        ((drive dst (l.take n.toNat) t).1 = true →
          k = (l.take n.toNat).length) := by
  intro l
  induction l with
  | nil =>
    intro t n hn
    refine ⟨0, by omega, by simp, by simp [drive_nil], ?_, by simp⟩
    simp only [List.take_nil, List.drop_nil, drive_nil, List.append_nil]
    have h0 : n - ((0 : Nat) : Int) = n := by push_cast; ring
    rw [h0, decide_eq_true (by omega : n ≠ 0)]
    rfl
  | cons x xs ih =>
    intro t n hn
    have htake : (x :: xs).take n.toNat = x :: xs.take (n.toNat - 1) := by
      have htn : n.toNat = (n.toNat - 1) + 1 := by omega
      rw [htn]; rfl
    have hdrop : (x :: xs).drop n.toNat = xs.drop (n.toNat - 1) := by
      have htn : n.toNat = (n.toNat - 1) + 1 := by omega
      rw [htn]; rfl
    have hq : drive (qSink dst) (x :: xs) (t, n) =
        if (dst x t).1 && decide (n - 1 ≠ 0) then
          drive (qSink dst) xs ((dst x t).2, n - 1)
        else (false, xs, ((dst x t).2, n - 1)) := rfl
    by_cases hd : (dst x t).1
    · by_cases h1 : n = 1
      · subst h1
        have ht0 : (1 : Int).toNat - 1 = 0 := by omega
        have hL : (x :: xs).take (1 : Int).toNat = [x] := by
          rw [htake, ht0, List.take_zero]
        have hD : drive dst ((x :: xs).take (1 : Int).toNat) t
            = (true, [], (dst x t).2) := by
          rw [hL, drive_cons, hd]
          simp [drive_nil]
        refine ⟨1, by omega, ?_, ?_, ?_, ?_⟩
        · rw [hL]; simp
        · simp [hD, hL, drive_cons, hd, drive_nil]
        · rw [hq, hd, hD, hdrop, ht0]
          have hz : (1 : Int) - ((1 : Nat) : Int) = 0 := by norm_num
          rw [hz]
          simp
        · intro; rw [hL]; simp
    -- quota still positive after this element: recurse
      · have hn1 : 0 < n - 1 := by omega
        obtain ⟨k, hk1, hk2, hk3, hk4, hk5⟩ := ih (dst x t).2 (n - 1) hn1
        have htn1 : (n - 1).toNat = n.toNat - 1 := by omega
        rw [htn1] at hk2 hk3 hk4 hk5
        have hL : drive dst ((x :: xs).take n.toNat) t
            = drive dst (xs.take (n.toNat - 1)) (dst x t).2 := by
          rw [htake, drive_cons, hd]
          simp
        refine ⟨k + 1, by push_cast; omega, ?_, ?_, ?_, ?_⟩
        · rw [htake]; simp only [List.length_cons]; omega
        · rw [hL, htake, List.drop_succ_cons]
          exact hk3
        · rw [hq, hd, hL, hdrop]
          simp only [Bool.true_and]
          rw [if_pos (decide_eq_true (by omega : n - 1 ≠ 0)), hk4]
          have hc : n - 1 - (k : Int) = n - ((k : Nat) + 1 : Nat) := by
            push_cast; ring
          rw [hc]
        · intro hfl
          rw [hL] at hfl
          have := hk5 hfl
          rw [htake]
          simp only [List.length_cons]
          omega
    · have hd' : (dst x t).1 = false := by simpa using hd
      have hL : drive dst ((x :: xs).take n.toNat) t
          = (false, xs.take (n.toNat - 1), (dst x t).2) := by
        rw [htake, drive_cons, hd']
        simp
      refine ⟨1, by omega, ?_, ?_, ?_, ?_⟩
      · rw [htake]; simp
      · rw [hL, htake, List.drop_succ_cons, List.drop_zero]
      · rw [hq, hd', hL, hdrop]
        simp only [Bool.false_and]
        rw [if_neg (by simp)]
        rw [List.take_append_drop]
        have hone : n - ((1 : Nat) : Int) = n - 1 := by push_cast; ring
        rw [hone]
      · intro hfl
        rw [hL] at hfl
        simp at hfl

/-- The tame-pipeline contract, satisfied outright by honest pipelines:
sink states agree with canonical driving, the new state denotes the
remainder, and the flag agrees with canonical driving except that a `true`
may also report an empty remainder (quota exhaustion). -/
theorem honest_run' {α : Type u} (s : Proc α) (hh : honest s = true)
    {τ : Type u} (dst : α → τ → Bool × τ) (t : τ) :
    (run s dst t).2.2 = (drive dst (sem s) t).2.2 ∧
    sem (run s dst t).2.1 = (drive dst (sem s) t).2.1 ∧
    tame (run s dst t).2.1 = true ∧
    ((drive dst (sem s) t).1 = true → (run s dst t).1 = true) ∧
    ((run s dst t).1 = true →
      (drive dst (sem s) t).1 = true ∨ (drive dst (sem s) t).2.1 = []) := by
  obtain ⟨h1, h2, h3, h4⟩ := honest_run (pdepth s) s (Nat.le_refl _) hh dst t
  exact ⟨h2, h3, honest_tame _ h4, fun hf => h1.trans hf,
    fun hf => Or.inl ((h1.symm.trans hf))⟩

/-- Tame pipelines deliver a prefix of their eager denotation and leave the
matching suffix: the sink-state and remainder behave canonically, a
canonical-completion implies the flag, and a `true` flag means canonical
completion or an exhausted remainder. -/
theorem tame_run : ∀ {α : Type u} (s : Proc α), tame s = true →
    ∀ {τ : Type u} (dst : α → τ → Bool × τ) (t : τ),
      (run s dst t).2.2 = (drive dst (sem s) t).2.2 ∧
      sem (run s dst t).2.1 = (drive dst (sem s) t).2.1 ∧
      tame (run s dst t).2.1 = true ∧
      ((drive dst (sem s) t).1 = true → (run s dst t).1 = true) ∧
      ((run s dst t).1 = true →
        (drive dst (sem s) t).1 = true ∨ (drive dst (sem s) t).2.1 = []) := by
  intro α s
  induction s with
  | all S i =>
    intro ht τ dst t
    exact honest_run' _ (by simp [honest]) dst t
  | cnil =>
    intro ht τ dst t
    exact honest_run' _ (by simp [honest]) dst t
  | ccons cont r next ihr ihn =>
    intro ht τ dst t
    exact honest_run' _ (by simpa [tame, honest] using ht) dst t
  | unique beq st p r ih =>
    intro ht τ dst t
    exact honest_run' _ (by simpa [tame, honest] using ht) dst t
  | filter pred r ih =>
    intro ht τ dst t
    have htr : tame r = true := by simpa [tame] using ht
    obtain ⟨h1, h2, h3, h4, h5⟩ := ih htr (fSink pred dst) t
    obtain ⟨g1, g2, g3⟩ := drive_fSink pred dst (sem r) t
    rw [run_filter]
    refine ⟨h1.trans g2, ?_, by simpa [tame] using h3, ?_, ?_⟩
    · show ((sem (run r (fSink pred dst) t).2.1).filter pred) = _
      rw [h2, g3]
      rfl
    · intro hf
      exact h4 (g1.trans hf)
    · intro hf
      rcases h5 hf with hc | hc
      · exact Or.inl (g1.symm.trans hc)
      · refine Or.inr ?_
        show (drive dst ((sem r).filter pred) t).2.1 = []
        rw [← g3, hc]
        rfl
  | transform g r ih =>
    intro ht τ dst t
    have htr : tame r = true := by simpa [tame] using ht
    obtain ⟨h1, h2, h3, h4, h5⟩ := ih htr (mSink g dst) t
    obtain ⟨g1, g2, g3⟩ := drive_mSink g dst (sem r) t
    rw [run_transform]
    refine ⟨h1.trans g2, ?_, by simpa [tame] using h3, ?_, ?_⟩
    · show ((sem (run r (mSink g dst) t).2.1).map g) = _
      rw [h2, g3]
      rfl
    · intro hf
      exact h4 (g1.trans hf)
    · intro hf
      rcases h5 hf with hc | hc
      · exact Or.inl (g1.symm.trans hc)
      · refine Or.inr ?_
        show (drive dst ((sem r).map g) t).2.1 = []
        rw [← g3, hc]
        rfl
  | take n r ih =>
    intro ht τ dst t
    have htr : tame r = true := by simpa [tame] using ht
    by_cases hn0 : n = 0
    · rw [run_take, if_pos hn0]
      subst hn0
      simp [sem, drive_nil, tame, htr]
    · rw [run_take, if_neg hn0]
      obtain ⟨h1, h2, h3, h4, h5⟩ := ih htr (qSink dst) (t, n)
      rcases lt_or_gt_of_ne (show n ≠ 0 from hn0) with hneg | hpos
      · -- negative quota: behaves as the wrapped pipeline, quota drifts down
        obtain ⟨k, hk, hdq⟩ := drive_qneg dst (sem r) t n hneg
        rw [hdq] at h1 h2 h4 h5
        have e2 : (run r (qSink dst) (t, n)).2.2.1 = (drive dst (sem r) t).2.2 :=
          (congrArg Prod.fst h1)
        have e3 : (run r (qSink dst) (t, n)).2.2.2 = n - k :=
          (congrArg Prod.snd h1)
        have hsem : sem (Proc.take n r) = sem r := by
          simp [sem, hn0, hneg]
        rw [hsem]
        have hq2 : (run r (qSink dst) (t, n)).2.2.2 ≠ 0 := by rw [e3]; omega
        have hq3 : (run r (qSink dst) (t, n)).2.2.2 < 0 := by rw [e3]; omega
        refine ⟨e2, ?_, by simpa [tame] using h3, ?_, ?_⟩
        · show sem (Proc.take (run r (qSink dst) (t, n)).2.2.2
              (run r (qSink dst) (t, n)).2.1) = _
          simp only [sem, if_neg hq2, if_pos hq3]
          exact h2
        · intro hf
          simp only [Bool.or_eq_true]
          exact Or.inl (h4 hf)
        · intro hf
          simp only [Bool.or_eq_true, decide_eq_true_eq] at hf
          rcases hf with hf | hf
          · exact h5 hf
          · exact absurd hf (by rw [e3]; omega)
      · -- positive quota
        obtain ⟨k, hk1, hk2, hk3, hdq, hke⟩ := drive_qpos dst (sem r) t n hpos
        rw [hdq] at h1 h2 h4 h5
        have e2 : (run r (qSink dst) (t, n)).2.2.1
            = (drive dst ((sem r).take n.toNat) t).2.2 := congrArg Prod.fst h1
        have e3 : (run r (qSink dst) (t, n)).2.2.2 = n - k := congrArg Prod.snd h1
        have hsem : sem (Proc.take n r) = (sem r).take n.toNat := by
          simp [sem, hn0, show ¬n < 0 by omega]
        rw [hsem]
        refine ⟨e2, ?_, by simpa [tame] using h3, ?_, ?_⟩
        · show sem (Proc.take (run r (qSink dst) (t, n)).2.2.2
              (run r (qSink dst) (t, n)).2.1) = _
          rw [e3]
          by_cases hz : n - (k : Int) = 0
          · have hkn : k = n.toNat := by omega
            simp only [sem, hk3, hkn]
            rw [List.drop_eq_nil_of_le (by
              rw [List.length_take]; exact min_le_left _ _)]
            rw [if_pos (show n - ((n.toNat : Nat) : Int) = 0 by omega)]
          · have hzpos : 0 < n - (k : Int) := by omega
            simp only [sem, if_neg hz, if_neg (show ¬n - (k : Int) < 0 by omega)]
            rw [h2]
            by_cases hlen : (sem r).length ≤ n.toNat
            · rw [List.take_of_length_le hlen] at hk3 ⊢
              rw [show (sem r).drop n.toNat = [] from
                List.drop_eq_nil_of_le hlen, List.append_nil]
              apply List.take_of_length_le
              rw [hk3, List.length_drop]
              omega
            · have hLl : ((sem r).take n.toNat).length = n.toNat := by
                rw [List.length_take]
                omega
              apply List.take_left'
              rw [hk3, List.length_drop, hLl]
              omega
        · intro hf
          have hkL := hke hf
          simp only [Bool.or_eq_true, decide_eq_true_eq]
          by_cases hz : n - (k : Int) = 0
          · right; rw [e3]; exact hz
          · left
            exact h4 (by rw [hf]; simp [hz])
        · intro hf
          simp only [Bool.or_eq_true, decide_eq_true_eq] at hf
          rcases hf with hf | hf
          · rcases h5 hf with hc | hc
            · simp only [Bool.and_eq_true, decide_eq_true_eq] at hc
              exact Or.inl hc.1
            · rcases List.append_eq_nil.mp hc with ⟨hc1, -⟩
              exact Or.inr hc1
          · rw [e3] at hf
            have hkn : k = n.toNat := by omega
            refine Or.inr ?_
            rw [hk3, hkn]
            apply List.drop_eq_nil_of_le
            rw [List.length_take]
            exact min_le_left _ _

theorem uSink_inv {α τ : Type u} (beq : α → α → Bool)
    (dst : α → τ → Bool × τ) (P : τ → Prop)
    (hstep : ∀ x u, P u → P (dst x u).2) :
    ∀ (x : α) (u : τ × Option α), P u.1 → P ((uSink beq dst) x u).2.1 := by
  intro x u hu
  obtain ⟨u1, u2⟩ := u
  cases u2 with
  | none => simpa [uSink] using hstep x u1 hu
  | some pv =>
    by_cases he : beq pv x
    · simpa [uSink, he] using hu
    · simpa [uSink, he] using hstep x u1 hu

/-- Any property of the sink state preserved by every sink step is
preserved by a whole invocation. -/
theorem run_inv : ∀ (N : Nat) {α : Type u} (s : Proc α), pdepth s ≤ N →
    ∀ {τ : Type u} (P : τ → Prop) (dst : α → τ → Bool × τ),
      (∀ x u, P u → P (dst x u).2) →
      ∀ (t : τ), P t → P (run s dst t).2.2 := by
  intro N
  induction N with
  | zero =>
    intro α s h
    exact absurd (Nat.lt_of_lt_of_le (pdepth_pos s) h) (by simp)
  | succ N ih =>
    intro α s h τ P dst hstep t ht
    have hgo : ∀ (l : List α) (i : Nat) (t : τ), P t →
        P (allGo l i dst t).2.2 := by
      intro l
      induction l with
      | nil => intro i t ht; exact ht
      | cons x xs ihl =>
        intro i t ht
        by_cases hd : (dst x t).1
        · simpa [allGo, hd] using ihl (i + 1) _ (hstep x t ht)
        · simpa [allGo, hd] using hstep x t ht
    cases s with
    | all S i =>
      rw [run_all]
      exact hgo _ i t ht
    | filter pred r =>
      have hr : pdepth r ≤ N := by simp only [pdepth] at h; omega
      rw [run_filter]
      refine ih r hr P (fSink pred dst) ?_ t ht
      intro x u hu
      by_cases hp : pred x
      · simpa [fSink, hp] using hstep x u hu
      · simpa [fSink, hp] using hu
    | transform g r =>
      have hr : pdepth r ≤ N := by simp only [pdepth] at h; omega
      rw [run_transform]
      exact ih r hr P (mSink g dst) (fun x u hu => hstep (g x) u hu) t ht
    | take n r =>
      have hr : pdepth r ≤ N := by simp only [pdepth] at h; omega
      by_cases hn : n = 0
      · rw [run_take, if_pos hn]; exact ht
      · rw [run_take, if_neg hn]
        have := ih r hr (fun u => P u.1) (qSink dst)
          (fun x u hu => hstep x u.1 hu) (t, n) ht
        exact this
    | cnil => exact ht
    | ccons cont r next =>
      have hr : pdepth r ≤ N := by simp only [pdepth] at h; omega
      have hx : pdepth next ≤ N := by simp only [pdepth] at h; omega
      by_cases hc : cont
      · rw [run_ccons, if_pos hc]
        exact ih next hx P dst hstep t ht
      · rw [run_ccons, if_neg hc]
        by_cases hb : (run r dst t).1
        · rw [if_pos hb]
          exact ih next hx P dst hstep _ (ih r hr P dst hstep t ht)
        · rw [if_neg hb]
          exact ih r hr P dst hstep t ht
    | unique beq st p r =>
      have hr : pdepth r ≤ N := by simp only [pdepth] at h; omega
      by_cases hs : st
      · subst hs
        have h1 : P (run r (cSink dst) (t, false, p)).2.2.1 :=
          ih r hr (fun u => P u.1) (cSink dst)
            (fun x u hu => hstep x u.1 hu) (t, false, p) ht
        rw [run_unique_start]
        by_cases hb : (run r (cSink dst) (t, false, p)).1
        · rw [if_pos hb]; exact h1
        · rw [if_neg hb]
          by_cases hcont : (run r (cSink dst) (t, false, p)).2.2.2.1
          · rw [if_pos hcont]
            have hdep : pdepth (run r (cSink dst) (t, false, p)).2.1 ≤ N := by
              rw [run_pdepth]; exact hr
            exact ih _ hdep (fun u => P u.1) (uSink beq dst)
              (fun x u hu => uSink_inv beq dst P hstep x u hu)
              ((run r (cSink dst) (t, false, p)).2.2.1,
                (run r (cSink dst) (t, false, p)).2.2.2.2) h1
          · rw [if_neg hcont]; exact h1
      · have hs' : st = false := by simpa using hs
        subst hs'
        rw [run_unique_go]
        exact ih r hr (fun u => P u.1) (uSink beq dst)
          (fun x u hu => uSink_inv beq dst P hstep x u hu) (t, p) ht

/-- Verdict-oracle logging sink: the verdict may depend on the elements
delivered so far; the state accumulates the delivered elements. -/
def oSink {α : Type u} (v : α → List α → Bool) : α → List α → Bool × List α :=
  fun x l => (v x l, l ++ [x])

/-- The always-accepting logging sink. -/
def tSink {α : Type u} : α → List α → Bool × List α :=
  oSink (fun _ _ => true)

theorem logFold_tSink {α : Type u} :
    ∀ (l acc : List α), logFold (tSink) l acc = acc ++ l := by
  intro l
  induction l with
  | nil => intro acc; simp [logFold]
  | cons x xs ih =>
    intro acc
    show logFold tSink xs (acc ++ [x]) = acc ++ x :: xs
    rw [ih]
    simp

theorem drive_tSink {α : Type u} (l acc : List α) :
    drive tSink l acc = (true, [], acc ++ l) := by
  rw [drive_true tSink (fun _ _ => rfl) l acc, logFold_tSink]

/-- Driving a verdict-oracle logging sink: the log grows by exactly the
processed prefix, and the remainder is the matching suffix. -/
theorem drive_oSink {α : Type u} (v : α → List α → Bool) :
    ∀ (l acc : List α), ∃ k ≤ l.length,
      (drive (oSink v) l acc).2.1 = l.drop k ∧
      (drive (oSink v) l acc).2.2 = acc ++ l.take k ∧
      ((drive (oSink v) l acc).1 = true → k = l.length) := by
  intro l
  induction l with
  | nil => intro acc; exact ⟨0, by simp, by simp [drive_nil], by simp [drive_nil], by simp⟩
  | cons x xs ih =>
    intro acc
    by_cases hv : v x acc
    · obtain ⟨k, hk, h1, h2, h3⟩ := ih (acc ++ [x])
      refine ⟨k + 1, by simp; omega, ?_, ?_, ?_⟩
      · simpa [drive_cons, oSink, hv] using h1
      · rw [show (drive (oSink v) (x :: xs) acc) =
          drive (oSink v) xs (acc ++ [x]) by simp [drive_cons, oSink, hv]]
        rw [h2]
        simp
      · intro hf
        rw [show (drive (oSink v) (x :: xs) acc) =
          drive (oSink v) xs (acc ++ [x]) by simp [drive_cons, oSink, hv]] at hf
        simp [h3 hf]
    · refine ⟨1, by simp, ?_, ?_, ?_⟩
      · simp [drive_cons, oSink, hv]
      · simp [drive_cons, oSink, hv]
      · intro hf
        simp [drive_cons, oSink, hv] at hf

/-- The source sequences held by the `all` nodes of a pipeline. -/
def srcs : {α : Type u} → Proc α → List ((γ : Type u) × List γ)
  | _, .all S _ => [⟨_, S⟩]
  | _, .filter _ r => srcs r
  | _, .transform _ r => srcs r
  | _, .take _ r => srcs r
  | _, .cnil => []
  | _, .ccons _ r next => srcs r ++ srcs next
  | _, .unique _ _ _ r => srcs r

/-- An invocation never modifies any underlying source sequence: driving
only advances positions and flags. -/
theorem run_srcs : ∀ (N : Nat) {α : Type u} (s : Proc α), pdepth s ≤ N →
    ∀ {τ : Type u} (dst : α → τ → Bool × τ) (t : τ),
      srcs (run s dst t).2.1 = srcs s := by
  intro N
  induction N with
  | zero =>
    intro α s h
    exact absurd (Nat.lt_of_lt_of_le (pdepth_pos s) h) (by simp)
  | succ N ih =>
    intro α s h τ dst t
    cases s with
    | all S i => rw [run_all]; rfl
    | filter pred r =>
      have hr : pdepth r ≤ N := by simp only [pdepth] at h; omega
      rw [run_filter]
      simpa [srcs] using ih r hr (fSink pred dst) t
    | transform g r =>
      have hr : pdepth r ≤ N := by simp only [pdepth] at h; omega
      rw [run_transform]
      simpa [srcs] using ih r hr (mSink g dst) t
    | take n r =>
      have hr : pdepth r ≤ N := by simp only [pdepth] at h; omega
      by_cases hn : n = 0
      · rw [run_take, if_pos hn]
      · rw [run_take, if_neg hn]
        simpa [srcs] using ih r hr (qSink dst) (t, n)
    | cnil => rfl
    | ccons cont r next =>
      have hr : pdepth r ≤ N := by simp only [pdepth] at h; omega
      have hx : pdepth next ≤ N := by simp only [pdepth] at h; omega
      by_cases hc : cont
      · rw [run_ccons, if_pos hc]
        simpa [srcs] using ih next hx dst t
      · rw [run_ccons, if_neg hc]
        by_cases hb : (run r dst t).1
        · rw [if_pos hb]
          simp only [srcs]
          rw [ih next hx dst _, ih r hr dst t]
        · rw [if_neg hb]
          simp only [srcs]
          rw [ih r hr dst t]
    | unique beq st p r =>
      have hr : pdepth r ≤ N := by simp only [pdepth] at h; omega
      by_cases hs : st
      · subst hs
        rw [run_unique_start]
        by_cases hb : (run r (cSink dst) (t, false, p)).1
        · rw [if_pos hb]
          simpa [srcs] using ih r hr (cSink dst) (t, false, p)
        · rw [if_neg hb]
          by_cases hcont : (run r (cSink dst) (t, false, p)).2.2.2.1
          · rw [if_pos hcont]
            have hdep : pdepth (run r (cSink dst) (t, false, p)).2.1 ≤ N := by
              rw [run_pdepth]; exact hr
            simp only [srcs]
            rw [ih _ hdep (uSink beq dst) _,
              ih r hr (cSink dst) (t, false, p)]
          · rw [if_neg hcont]
            simpa [srcs] using ih r hr (cSink dst) (t, false, p)
      · have hs' : st = false := by simpa using hs
        subst hs'
        rw [run_unique_go]
        simpa [srcs] using ih r hr (uSink beq dst) (t, p)

/-! ### The `join` combinator

`join` wraps a ranger of sub-rangers; its state is the optional pending
sub-ranger `osrgr` plus the outer ranger.  The inner sink runs `(*p)(dst)`
and, on a `false`, stores `*p` — the result of dereferencing the cursor a
second time — as pending.  Two dereference disciplines occur in the
source:

* reference semantics (`JoinR`): the outer cursor dereferences to the
  sub-ranger object itself (e.g. `join(all(vector_of_rangers))`), so the
  drive mutates it in place and the second dereference yields the driven,
  partially-consumed sub-ranger;
* value semantics (`JoinV`): the outer cursor manufactures a fresh
  sub-ranger at every dereference, which is exactly what `ranger_join`'s
  `transform(all_adaptor, rgr)` cursors do (`deref_fun::operator*` builds
  `all(srng)` anew), so the pending sub-ranger stored after a stop is a
  fresh one positioned at the start of its sub-sequence. -/

/-- `join` state, reference-dereference discipline. -/
structure JoinR (α : Type u) : Type (u + 2) where
  pend : Option (Proc α)
  outer : Proc (Proc α)

/-- `join`'s intercepting sink, reference discipline: drive the sub-ranger
with the outer sink; on a stop, store the driven sub-ranger as pending. -/
def jSinkR {α τ : Type u} (dst : α → τ → Bool × τ) :
    Proc α → τ × Option (Proc α) → Bool × (τ × Option (Proc α)) :=
  fun s0 u =>
    let o := run s0 dst u.1
    if o.1 then (true, (o.2.2, u.2)) else (false, (o.2.2, some o.2.1))

/-- One invocation of `join`, reference discipline: resume the pending
sub-ranger first (keeping it stored, as the source never resets `osrgr`),
then pull sub-rangers from the outer ranger. -/
def runJR {α τ : Type u} (J : JoinR α) (dst : α → τ → Bool × τ) (t : τ) :
    Bool × JoinR α × τ :=
  match J.pend with
  | some s0 =>
    let o := run s0 dst t
    if o.1 then
      let o2 := run J.outer (jSinkR dst) (o.2.2, some o.2.1)
      (o2.1, ⟨o2.2.2.2, o2.2.1⟩, o2.2.2.1)
    else (false, ⟨some o.2.1, J.outer⟩, o.2.2)
  | none =>
    let o2 := run J.outer (jSinkR dst) (t, none)
    (o2.1, ⟨o2.2.2.2, o2.2.1⟩, o2.2.2.1)

/-- `join` state, value-dereference discipline (the `ranger_join` shape):
the outer ranger delivers cursor payloads `κ` and every dereference builds
a fresh sub-ranger via `deref`. -/
structure JoinV (κ : Type (u + 1)) (α : Type u) : Type (u + 2) where
  deref : κ → Proc α
  pend : Option (Proc α)
  outer : Proc κ

/-- `join`'s intercepting sink, value discipline: `auto cont=(*p)(dst);
if(!cont)osrgr.emplace(*p);` — the emplaced pending sub-ranger comes from a
second dereference and is therefore fresh. -/
def jSinkV {κ : Type (u + 1)} {α τ : Type u} (deref : κ → Proc α)
    (dst : α → τ → Bool × τ) :
    κ → τ × Option (Proc α) → Bool × (τ × Option (Proc α)) :=
  fun c u =>
    let o := run (deref c) dst u.1
    if o.1 then (true, (o.2.2, u.2)) else (false, (o.2.2, some (deref c)))

/-- One invocation of `join`, value discipline. -/
def runJV {κ : Type (u + 1)} {α τ : Type u} (J : JoinV κ α)
    (dst : α → τ → Bool × τ) (t : τ) : Bool × JoinV κ α × τ :=
  match J.pend with
  | some s0 =>
    let o := run s0 dst t
    if o.1 then
      let o2 := run J.outer (jSinkV J.deref dst) (o.2.2, some o.2.1)
      (o2.1, ⟨J.deref, o2.2.2.2, o2.2.1⟩, o2.2.2.1)
    else (false, ⟨J.deref, some o.2.1, J.outer⟩, o.2.2)
  | none =>
    let o2 := run J.outer (jSinkV J.deref dst) (t, none)
    (o2.1, ⟨J.deref, o2.2.2.2, o2.2.1⟩, o2.2.2.1)

/-- Eager denotation of an optional pending sub-ranger. -/
def semO {α : Type u} : Option (Proc α) → List α
  | some s => sem s
  | none => []

/-- Eager denotation of a reference-discipline `join` state: what the
pending sub-ranger still delivers, then the concatenation of what each
remaining sub-ranger delivers. -/
def semJR {α : Type u} (J : JoinR α) : List α :=
  semO J.pend ++ (sem J.outer).flatMap sem

/-- Well-formedness of a reference-discipline `join` state: `take`-free
everywhere (outer ranger, pending, every sub-ranger still to come). -/
def honJR {α : Type u} (J : JoinR α) : Prop :=
  (∀ s0, J.pend = some s0 → honest s0 = true) ∧
  honest J.outer = true ∧
  ∀ s' ∈ sem J.outer, honest s' = true

/-- Driving `join`'s reference-discipline sink over a list of honest
sub-rangers is canonical driving of their concatenated denotations; the
pending slot ends holding either the stale entry or a stopped sub-ranger
whose denotation is exactly the unprocessed part of its sub-sequence. -/
theorem drive_jSinkR {α τ : Type u} (dst : α → τ → Bool × τ) :
    ∀ (L : List (Proc α)) (t : τ) (pd : Option (Proc α)),
      (∀ s' ∈ L, honest s' = true) →
      (∀ s0, pd = some s0 → honest s0 = true ∧ sem s0 = []) →
      (drive (jSinkR dst) L (t, pd)).1 = (drive dst (L.flatMap sem) t).1 ∧
      (drive (jSinkR dst) L (t, pd)).2.2.1 = (drive dst (L.flatMap sem) t).2.2 ∧
      semO (drive (jSinkR dst) L (t, pd)).2.2.2 ++
          ((drive (jSinkR dst) L (t, pd)).2.1).flatMap sem
        = (drive dst (L.flatMap sem) t).2.1 ∧
      (∀ s0, (drive (jSinkR dst) L (t, pd)).2.2.2 = some s0 →
        honest s0 = true) ∧
      (∀ s' ∈ (drive (jSinkR dst) L (t, pd)).2.1, honest s' = true) := by
  intro L
  induction L with
  | nil =>
    intro t pd hL hpd
    refine ⟨by simp [drive_nil], by simp [drive_nil], ?_, ?_, ?_⟩
    · simp only [drive_nil, List.flatMap_nil]
      rcases pd with _ | s0
      · simp [semO, drive_nil]
      · simp [semO, (hpd s0 rfl).2, drive_nil]
    · intro s0 hs0
      simp only [drive_nil] at hs0
      exact ((hpd s0 hs0).1)
    · intro s' hs'
      simp [drive_nil] at hs'
  | cons s0 L ih =>
    intro t pd hL hpd
    have hs0 : honest s0 = true := hL s0 (by simp)
    obtain ⟨e1, e2, e3, e4⟩ := honest_run (pdepth s0) s0 (Nat.le_refl _) hs0 dst t
    have hstep : drive (jSinkR dst) (s0 :: L) (t, pd) =
        if (run s0 dst t).1 then
          drive (jSinkR dst) L ((run s0 dst t).2.2, pd)
        else (false, L, ((run s0 dst t).2.2, some (run s0 dst t).2.1)) := by
      rw [drive_cons]
      simp only [jSinkR]
      by_cases hb : (run s0 dst t).1
      · simp [hb]
      · simp [hb]
    have happ := drive_append dst (sem s0) (L.flatMap sem) t
    rw [show (s0 :: L).flatMap sem = sem s0 ++ L.flatMap sem from List.flatMap_cons _ _ _]
    by_cases hb : (run s0 dst t).1
    · -- the sub-ranger completed: canonical driving consumed all of sem s0
      have hflag : (drive dst (sem s0) t).1 = true := by rw [← e1]; exact hb
      rw [hstep, if_pos hb, happ, if_pos hflag, ← e2]
      exact ih (run s0 dst t).2.2 pd (List.forall_mem_cons.mp hL).2 hpd
    · have hb' : (run s0 dst t).1 = false := by simpa using hb
      have hflag : (drive dst (sem s0) t).1 = false := by rw [← e1]; exact hb'
      rw [hstep, if_neg hb, happ,
        if_neg (show ¬((drive dst (sem s0) t).1 = true) by rw [hflag]; simp)]
      refine ⟨rfl, e2, ?_, ?_, ?_⟩
      · show semO (some (run s0 dst t).2.1) ++ L.flatMap sem = _
        simp only [semO]
        rw [e3]
      · intro s1 hs1
        simp only [Option.some.injEq] at hs1
        rw [← hs1]
        exact e4
      · intro s' hs'
        exact hL s' (by simp [hs'])

theorem drive_flag_rest {α τ : Type u} (dst : α → τ → Bool × τ)
    (l : List α) (t : τ) :
    (drive dst l t).1 = true → (drive dst l t).2.1 = [] := by
  obtain ⟨k, hk, hrest, hflag⟩ := drive_rest dst l t
  intro hf
  rw [hrest, hflag hf]
  exact List.drop_length _

/-- Reference-discipline `join` over `take`-free components is canonical:
one invocation behaves like canonical driving of the flattened denotation,
the updated state denotes the remainder, and well-formedness persists. -/
theorem runJR_canon {α τ : Type u} (J : JoinR α) (hJ : honJR J)
    (dst : α → τ → Bool × τ) (t : τ) :
    (runJR J dst t).1 = (drive dst (semJR J) t).1 ∧
    (runJR J dst t).2.2 = (drive dst (semJR J) t).2.2 ∧
    semJR (runJR J dst t).2.1 = (drive dst (semJR J) t).2.1 ∧
    honJR (runJR J dst t).2.1 := by
  obtain ⟨pd, outer⟩ := J
  obtain ⟨hp, ho, hsubs⟩ := hJ
  cases pd with
  | none =>
    obtain ⟨e1, e2, e3, e4⟩ :=
      honest_run (pdepth outer) outer (Nat.le_refl _) ho (jSinkR dst) (t, none)
    obtain ⟨w1, w2, w3, w4, w5⟩ :=
      drive_jSinkR dst (sem outer) t none hsubs (by simp)
    have hsem : semJR ⟨none, outer⟩ = (sem outer).flatMap sem := by
      simp [semJR, semO]
    have hlhs : runJR ⟨none, outer⟩ dst t =
        ((run outer (jSinkR dst) (t, none)).1,
          ⟨(run outer (jSinkR dst) (t, none)).2.2.2,
            (run outer (jSinkR dst) (t, none)).2.1⟩,
          (run outer (jSinkR dst) (t, none)).2.2.1) := rfl
    rw [hsem, hlhs]
    refine ⟨e1.trans w1, ?_, ?_, ?_, e4, ?_⟩
    · show (run outer (jSinkR dst) (t, none)).2.2.1 = _
      rw [show (run outer (jSinkR dst) (t, none)).2.2.1
        = ((run outer (jSinkR dst) (t, none)).2.2).1 from rfl, e2]
      exact w2
    · show semO (run outer (jSinkR dst) (t, none)).2.2.2 ++
        (sem (run outer (jSinkR dst) (t, none)).2.1).flatMap sem = _
      rw [show (run outer (jSinkR dst) (t, none)).2.2.2
        = ((run outer (jSinkR dst) (t, none)).2.2).2 from rfl, e2, e3]
      exact w3
    · intro s1 hs1
      refine w4 s1 ?_
      rw [show (run outer (jSinkR dst) (t, none)).2.2.2
        = ((run outer (jSinkR dst) (t, none)).2.2).2 from rfl, e2] at hs1
      exact hs1
    · intro s' hs'
      have hs'' : s' ∈ sem (run outer (jSinkR dst) (t, none)).2.1 := hs'
      rw [e3] at hs''
      exact w5 s' hs''
  | some s0 =>
    have hs0 : honest s0 = true := hp s0 rfl
    obtain ⟨f1, f2, f3, f4⟩ :=
      honest_run (pdepth s0) s0 (Nat.le_refl _) hs0 dst t
    have hsem : semJR ⟨some s0, outer⟩ = sem s0 ++ (sem outer).flatMap sem := by
      simp [semJR, semO]
    rw [hsem]
    have happ := drive_append dst (sem s0) ((sem outer).flatMap sem) t
    by_cases hb : (run s0 dst t).1
    · have hflag : (drive dst (sem s0) t).1 = true := by rw [← f1]; exact hb
      have hrest : sem (run s0 dst t).2.1 = [] := by
        rw [f3]; exact drive_flag_rest dst (sem s0) t hflag
      obtain ⟨e1, e2, e3, e4⟩ :=
        honest_run (pdepth outer) outer (Nat.le_refl _) ho (jSinkR dst)
          ((run s0 dst t).2.2, some (run s0 dst t).2.1)
      obtain ⟨w1, w2, w3, w4, w5⟩ :=
        drive_jSinkR dst (sem outer) (run s0 dst t).2.2
          (some (run s0 dst t).2.1) hsubs
          (by
            intro s1 hs1
            simp only [Option.some.injEq] at hs1
            rw [← hs1]
            exact ⟨f4, hrest⟩)
      have hlhs : runJR ⟨some s0, outer⟩ dst t =
          ((run outer (jSinkR dst) ((run s0 dst t).2.2, some (run s0 dst t).2.1)).1,
            ⟨(run outer (jSinkR dst)
                ((run s0 dst t).2.2, some (run s0 dst t).2.1)).2.2.2,
              (run outer (jSinkR dst)
                ((run s0 dst t).2.2, some (run s0 dst t).2.1)).2.1⟩,
            (run outer (jSinkR dst)
              ((run s0 dst t).2.2, some (run s0 dst t).2.1)).2.2.1) := by
        simp only [runJR, hb, if_pos]
      rw [hlhs, happ, if_pos hflag, ← f2]
      refine ⟨e1.trans w1, ?_, ?_, ?_, e4, ?_⟩
      · rw [show (run outer (jSinkR dst)
          ((run s0 dst t).2.2, some (run s0 dst t).2.1)).2.2.1
          = ((run outer (jSinkR dst)
            ((run s0 dst t).2.2, some (run s0 dst t).2.1)).2.2).1 from rfl, e2]
        exact w2
      · show semO _ ++ (sem _).flatMap sem = _
        rw [show (run outer (jSinkR dst)
          ((run s0 dst t).2.2, some (run s0 dst t).2.1)).2.2.2
          = ((run outer (jSinkR dst)
            ((run s0 dst t).2.2, some (run s0 dst t).2.1)).2.2).2 from rfl,
          e2, e3]
        exact w3
      · intro s1 hs1
        refine w4 s1 ?_
        rw [show (run outer (jSinkR dst)
          ((run s0 dst t).2.2, some (run s0 dst t).2.1)).2.2.2
          = ((run outer (jSinkR dst)
            ((run s0 dst t).2.2, some (run s0 dst t).2.1)).2.2).2 from rfl,
          e2] at hs1
        exact hs1
      · intro s' hs'
        rw [e3] at hs'
        exact w5 s' hs'
    · have hb' : (run s0 dst t).1 = false := by simpa using hb
      have hflag : (drive dst (sem s0) t).1 = false := by rw [← f1]; exact hb'
      have hlhs : runJR ⟨some s0, outer⟩ dst t =
          (false, ⟨some (run s0 dst t).2.1, outer⟩, (run s0 dst t).2.2) := by
        simp only [runJR]
        rw [if_neg (show ¬((run s0 dst t).1 = true) by rw [hb']; simp)]
      rw [hlhs, happ, if_neg (by rw [hflag]; simp)]
      refine ⟨rfl, f2, ?_, ?_, ho, hsubs⟩
      · show semO (some (run s0 dst t).2.1) ++ (sem outer).flatMap sem = _
        simp only [semO]
        rw [f3]
      · intro s1 hs1
        simp only [Option.some.injEq] at hs1
        rw [← hs1]
        exact f4

/-- Driving `join`'s value-discipline sink with the always-accepting
logging sink completes every fresh sub-ranger and logs the concatenation. -/
theorem drive_jSinkV_tSink {κ : Type (u + 1)} {α : Type u}
    (deref : κ → Proc α) :
    ∀ (L : List κ) (acc : List α) (pd : Option (Proc α)),
      (∀ c ∈ L, honest (deref c) = true) →
      drive (jSinkV deref tSink) L (acc, pd)
        = (true, [], (acc ++ L.flatMap (fun c => sem (deref c)), pd)) := by
  intro L
  induction L with
  | nil => intro acc pd hL; simp [drive_nil]
  | cons c L ih =>
    intro acc pd hL
    have hc : honest (deref c) = true := hL c (by simp)
    obtain ⟨e1, e2, e3, e4⟩ :=
      honest_run (pdepth (deref c)) (deref c) (Nat.le_refl _) hc tSink acc
    rw [drive_tSink] at e1 e2
    have hstep : jSinkV deref tSink c (acc, pd)
        = (true, (acc ++ sem (deref c), pd)) := by
      simp only [jSinkV]
      rw [if_pos e1, e2]
    rw [drive_cons, hstep]
    simp only [if_pos (rfl : (true : Bool) = true)]
    rw [ih (acc ++ sem (deref c)) pd (List.forall_mem_cons.mp hL).2]
    simp

/-- `ranger_join`-style (value-discipline) `join` with the always-accepting
logging sink delivers the pending remainder followed by the concatenation
of every sub-sequence, and reports completion. -/
theorem runJV_tSink {κ : Type (u + 1)} {α : Type u} (J : JoinV κ α)
    (houter : tame J.outer = true)
    (hsubs : ∀ c ∈ sem J.outer, honest (J.deref c) = true)
    (hpend : ∀ s0, J.pend = some s0 → honest s0 = true) (acc : List α) :
    (runJV J tSink acc).1 = true ∧
    (runJV J tSink acc).2.2 = acc ++ semO J.pend ++
      (sem J.outer).flatMap (fun c => sem (J.deref c)) := by
  obtain ⟨deref, pd, outer⟩ := J
  cases pd with
  | none =>
    obtain ⟨g1, g2, g3, g4, g5⟩ :=
      tame_run outer houter (jSinkV deref tSink) (acc, none)
    have hdrv := drive_jSinkV_tSink deref (sem outer) acc none hsubs
    have h2 := g1
    rw [hdrv] at h2
    dsimp only at h2
    constructor
    · show (run outer (jSinkV deref tSink) (acc, none)).1 = true
      refine g4 ?_
      rw [hdrv]
    · show (run outer (jSinkV deref tSink) (acc, none)).2.2.1 = _
      rw [show (run outer (jSinkV deref tSink) (acc, none)).2.2.1
        = ((run outer (jSinkV deref tSink) (acc, none)).2.2).1 from rfl, h2]
      simp [semO]
  | some s0 =>
    have hs0 : honest s0 = true := hpend s0 rfl
    obtain ⟨f1, f2, f3, f4⟩ :=
      honest_run (pdepth s0) s0 (Nat.le_refl _) hs0 tSink acc
    rw [drive_tSink] at f1 f2
    dsimp only at f1 f2
    obtain ⟨g1, g2, g3, g4, g5⟩ :=
      tame_run outer houter (jSinkV deref tSink)
        ((run s0 tSink acc).2.2, some (run s0 tSink acc).2.1)
    have hdrv := drive_jSinkV_tSink deref (sem outer) ((run s0 tSink acc).2.2)
      (some (run s0 tSink acc).2.1) hsubs
    have h2 := g1
    rw [hdrv] at h2
    dsimp only at h2
    have hlhs : runJV ⟨deref, some s0, outer⟩ tSink acc =
        ((run outer (jSinkV deref tSink)
            ((run s0 tSink acc).2.2, some (run s0 tSink acc).2.1)).1,
          ⟨deref,
            (run outer (jSinkV deref tSink)
              ((run s0 tSink acc).2.2, some (run s0 tSink acc).2.1)).2.2.2,
            (run outer (jSinkV deref tSink)
              ((run s0 tSink acc).2.2, some (run s0 tSink acc).2.1)).2.1⟩,
          (run outer (jSinkV deref tSink)
            ((run s0 tSink acc).2.2, some (run s0 tSink acc).2.1)).2.2.1) := by
      simp only [runJV]
      rw [if_pos f1]
    rw [hlhs]
    constructor
    · refine g4 ?_
      rw [hdrv]
    · show (run outer (jSinkV deref tSink)
        ((run s0 tSink acc).2.2, some (run s0 tSink acc).2.1)).2.2.1 = _
      rw [show (run outer (jSinkV deref tSink)
          ((run s0 tSink acc).2.2, some (run s0 tSink acc).2.1)).2.2.1
        = ((run outer (jSinkV deref tSink)
          ((run s0 tSink acc).2.2, some (run s0 tSink acc).2.1)).2.2).1 from rfl,
        h2, f2]
      simp [semO, List.append_assoc]

/-! ### Fallible user callables

A second interpreter in which the user-supplied callables (filter
predicate, transform function, unique's equality) and the sink may fail.
A failure unwinds through every combinator exactly as a C++ exception
does: no statement after the failing call runs, so closure state mutated
before the call keeps its value and state written only on normal return
paths (the source adaptor's `first=it`) keeps its entry value.  The
result always carries the post-unwind combinator state.  `uniqueF` models
the steady state of `unique` (after its first element), whose remembered
cursor and comparison are what §7 of the design discusses. -/
inductive FP (α ε : Type u) : Type u where
  | allF : List α → Nat → FP α ε
  | filterF : (α → Except ε Bool) → FP α ε → FP α ε
  | transformF : (α → Except ε α) → FP α ε → FP α ε
  | takeF : Int → FP α ε → FP α ε
  | cnilF : FP α ε
  | cconsF : Bool → FP α ε → FP α ε → FP α ε
  | uniqueF : (α → α → Except ε Bool) → Option α → FP α ε → FP α ε

/-- The loop of `all` with a fallible sink: on failure the stored position
stays at its entry value (`first=it` runs only on normal returns). -/
def allGoE {α ε τ : Type u} : List α → Nat → Nat →
    (α → τ → τ × Except ε Bool) → τ → Nat × τ × Except ε Bool
  | [], i, _, _, t => (i, t, .ok true)
  | x :: xs, i, entry, dst, t =>
    match dst x t with
    | (t', .error er) => (entry, t', .error er)
    | (t', .ok true) => allGoE xs (i + 1) entry dst t'
    | (t', .ok false) => (i + 1, t', .ok false)

/-- One invocation with fallible callables and sink.  Returns the
post-invocation (or post-unwind) state, the sink state, and the completion
flag or the propagated failure. -/
def runE {α ε : Type u} : FP α ε → {τ : Type u} →
    (α → τ → τ × Except ε Bool) → τ → FP α ε × τ × Except ε Bool
  | .allF S i => fun dst t =>
    let o := allGoE (S.drop i) i i dst t
    (.allF S o.1, o.2.1, o.2.2)
  | .filterF pred r => fun dst t =>
    let o := runE r (fun x u =>
      match pred x with
      | .error e => (u, .error e)
      | .ok b => if b then dst x u else (u, .ok true)) t
    (.filterF pred o.1, o.2)
  | .transformF f r => fun dst t =>
    let o := runE r (fun x u =>
      match f x with
      | .error e => (u, .error e)
      | .ok y => dst y u) t
    (.transformF f o.1, o.2)
  | .takeF n r => fun dst t =>
    if n = 0 then (.takeF n r, t, .ok true)
    else
      let o := runE r (fun x (u : _ × Int) =>
        let m := u.2 - 1
        match dst x u.1 with
        | (t', .error e) => ((t', m), .error e)
        | (t', .ok c) => ((t', m), .ok (c && decide (m ≠ 0)))) (t, n)
      match o.2.2 with
      | .error e => (.takeF o.2.1.2 o.1, o.2.1.1, .error e)
      | .ok b =>
        (.takeF o.2.1.2 o.1, o.2.1.1, .ok (b || decide (o.2.1.2 = 0)))
  | .cnilF => fun _ t => (.cnilF, t, .ok true)
  | .cconsF cont r next => fun dst t =>
    if cont then
      let o := runE next dst t
      (.cconsF true r o.1, o.2)
    else
      let o := runE r dst t
      match o.2.2 with
      | .error e => (.cconsF false o.1 next, o.2.1, .error e)
      | .ok true =>
        let o2 := runE next dst o.2.1
        (.cconsF true o.1 o2.1, o2.2)
      | .ok false => (.cconsF false o.1 next, o.2.1, .ok false)
  | .uniqueF beq p r => fun dst t =>
    let o := runE r (fun q u =>
      match u.2 with
      | some pv =>
        match beq pv q with
        | .error e => ((u.1, u.2), .error e)
        | .ok true => ((u.1, some q), .ok true)
        | .ok false =>
          match dst q u.1 with
          | (t', .error e) => ((t', some q), .error e)
          | (t', .ok c) => ((t', some q), .ok c)
      | none =>
        match dst q u.1 with
        | (t', .error e) => ((t', some q), .error e)
        | (t', .ok c) => ((t', some q), .ok c)) (t, p)
    (.uniqueF beq o.2.1.2 o.1, o.2.1.1, o.2.2)

/-- On failure, `all`'s loop leaves the stored position at its entry
value: the elements already pushed in the failing invocation will be
redelivered on re-invocation. -/
theorem allGoE_err {α ε τ : Type u} (dst : α → τ → τ × Except ε Bool) :
    ∀ (l : List α) (i entry : Nat) (t : τ) (er : ε),
      (allGoE l i entry dst t).2.2 = .error er →
      (allGoE l i entry dst t).1 = entry := by
  intro l
  induction l with
  | nil =>
    intro i entry t er h
    simp [allGoE] at h
  | cons x xs ih =>
    intro i entry t er h
    rcases hd : dst x t with ⟨t', v⟩
    cases v with
    | error e => simp [allGoE, hd]
    | ok b =>
      cases b with
      | true =>
        rw [show allGoE (x :: xs) i entry dst t
          = allGoE xs (i + 1) entry dst t' by simp [allGoE, hd]] at h ⊢
        exact ih (i + 1) entry t' er h
      | false =>
        rw [show allGoE (x :: xs) i entry dst t
          = (i + 1, t', .ok false) by simp [allGoE, hd]] at h
        simp at h

/-- A predicate failure inside `filter` over `all` propagates and leaves
the whole state exactly as it was at invocation entry. -/
theorem runE_filter_all_err {α ε τ : Type u} (pred : α → Except ε Bool)
    (S : List α) (i : Nat) (dst : α → τ → τ × Except ε Bool) (t : τ)
    (er : ε) :
    (runE (.filterF pred (.allF S i)) dst t).2.2 = .error er →
    (runE (.filterF pred (.allF S i)) dst t).1
      = .filterF pred (.allF S i) := by
  intro h
  simp only [runE] at h ⊢
  exact congrArg (fun j => FP.filterF pred (FP.allF S j))
    (allGoE_err _ (S.drop i) i i t er h)

/-! ### Multiple invocations -/

/-- Pipeline state left after a sequence of invocations, each driven by a
verdict-oracle logging sink. -/
def drainState {α : Type u} : Proc α → List (α → List α → Bool) → Proc α
  | s, [] => s
  | s, v :: vs => drainState (run s (oSink v) []).2.1 vs

/-- The logs of a sequence of invocations, each driven by a verdict-oracle
logging sink. -/
def drainLogs {α : Type u} : Proc α → List (α → List α → Bool) → List (List α)
  | _, [] => []
  | s, v :: vs => (run s (oSink v) []).2.2 :: drainLogs (run s (oSink v) []).2.1 vs

/-- Per-invocation accounting for `take` over a `take`-free wrapped ranger:
the invocation delivers `k ≤ n` elements, and the state is `take` with the
quota reduced by exactly `k` over the driven (still `take`-free) wrapped
ranger. -/
theorem take_invoke {α : Type u} (n : Int) (r : Proc α)
    (hr : honest r = true) (hn : 0 < n) (v : α → List α → Bool) :
    ∃ k : Nat, (k : Int) ≤ n ∧
      (run (Proc.take n r) (oSink v) []).2.2.length = k ∧
      ∃ r', (run (Proc.take n r) (oSink v) []).2.1 = Proc.take (n - k) r' ∧
        honest r' = true := by
  obtain ⟨e1, e2, e3, e4⟩ :=
    honest_run (pdepth r) r (Nat.le_refl _) hr (qSink (oSink v)) ([], n)
  obtain ⟨k, hk1, hk2, hk3, hdq, hke⟩ := drive_qpos (oSink v) (sem r) [] n hn
  rw [hdq] at e1 e2
  refine ⟨k, hk1, ?_, (run r (qSink (oSink v)) ([], n)).2.1, ?_, e4⟩
  · rw [run_take, if_neg (by omega)]
    show ((run r (qSink (oSink v)) ([], n)).2.2.1).length = k
    rw [show (run r (qSink (oSink v)) ([], n)).2.2.1
      = ((run r (qSink (oSink v)) ([], n)).2.2).1 from rfl, e2]
    obtain ⟨k', hk'1, hk'2, hk'3, -⟩ := drive_oSink v ((sem r).take n.toNat) []
    have hkk : k' = k := by
      have hlen := congrArg List.length (hk'2.symm.trans hk3)
      rw [List.length_drop, List.length_drop] at hlen
      omega
    show (drive (oSink v) ((sem r).take n.toNat) []).2.2.length = k
    rw [hk'3]
    simp only [List.nil_append, List.length_take]
    rw [hkk]
    have := hk2
    rw [List.length_take] at this
    omega
  · rw [run_take, if_neg (by omega)]
    show Proc.take (run r (qSink (oSink v)) ([], n)).2.2.2 _ = _
    rw [show (run r (qSink (oSink v)) ([], n)).2.2.2
      = ((run r (qSink (oSink v)) ([], n)).2.2).2 from rfl, e2]

/-- C6: `unique` boundary behaviour.  Over an empty source the invocation
reports `true` at once with zero deliveries; over `[1,1,1,2,2,1]` it
delivers exactly `[1,2,1]` (first element of each maximal run of adjacent
equal values, compared by element equality) and reports `true`; and when
the outer sink rejects the very first delivered element the invocation
returns `false` immediately, having delivered only that element. -/
theorem C6_unique_boundary :
    (∀ {α τ : Type u} (beq : α → α → Bool) (dst : α → τ → Bool × τ) (t : τ),
      (run (Proc.unique beq true none (Proc.all [] 0)) dst t).1 = true ∧
      (run (Proc.unique beq true none (Proc.all [] 0)) dst t).2.2 = t) ∧
    ((run (Proc.unique (fun a b : Int => decide (a = b)) true none
        (Proc.all [1, 1, 1, 2, 2, 1] 0)) tSink []).1 = true ∧
      (run (Proc.unique (fun a b : Int => decide (a = b)) true none
        (Proc.all [1, 1, 1, 2, 2, 1] 0)) tSink []).2.2 = [1, 2, 1]) ∧
    (∀ {α τ : Type u} (beq : α → α → Bool) (x : α) (xs : List α)
        (dst : α → τ → Bool × τ) (t : τ), (dst x t).1 = false →
      (run (Proc.unique beq true none (Proc.all (x :: xs) 0)) dst t).1 = false ∧
      (run (Proc.unique beq true none (Proc.all (x :: xs) 0)) dst t).2.2
        = (dst x t).2) := by
  refine ⟨?_, ⟨by decide, by decide⟩, ?_⟩
  · intro α τ beq dst t
    constructor <;> rfl
  · intro α τ beq x xs dst t hd
    have hcap : run (Proc.all (x :: xs) 0) (cSink dst) (t, false, none)
        = (false, Proc.all (x :: xs) 1, ((dst x t).2, (dst x t).1, some x)) := by
      rw [run_all]
      simp [allGo, cSink]
    rw [run_unique_start, hcap]
    simp [hd]

/-- C6 witness: the early-rejection clause at a concrete input — an
always-refusing sink on `[7,8]` gets exactly the first element and the
invocation reports `false`. -/
theorem C6_unique_boundary_witness :
    ((fun (_ : Int) (l : List Int) => ((false : Bool), l ++ [7])) 7 []).1 = false ∧
    ((run (Proc.unique (fun a b : Int => decide (a = b)) true none
        (Proc.all [7, 8] 0))
        (fun _ l => (false, l ++ [7])) []).1 = false ∧
      (run (Proc.unique (fun a b : Int => decide (a = b)) true none
        (Proc.all [7, 8] 0))
        (fun _ l => (false, l ++ [7])) []).2.2 = [7]) :=
  ⟨by decide,
    C6_unique_boundary.2.2 (fun a b : Int => decide (a = b)) 7 [8]
      (fun _ l => (false, l ++ [7])) [] (by decide)⟩

/-- C7: concatenation order and boundaries.  The empty concatenation
reports `true` immediately, never touching the sink;
`concat(all [1,2], all [], all [3])` delivers exactly `[1,2,3]` and reports
`true`; and in general a fresh two-stage concatenation of `take`-free
rangers driven to completion delivers all elements of the first stage
followed by all elements of the second. -/
theorem C7_concat_order :
    (∀ {α τ : Type u} (dst : α → τ → Bool × τ) (t : τ),
      run (Proc.cnil (α := α)) dst t = (true, Proc.cnil, t)) ∧
    ((run (Proc.ccons false (Proc.all ([1, 2] : List Int) 0)
        (Proc.ccons false (Proc.all [] 0)
          (Proc.ccons false (Proc.all [3] 0) Proc.cnil))) tSink []).1 = true ∧
      (run (Proc.ccons false (Proc.all ([1, 2] : List Int) 0)
        (Proc.ccons false (Proc.all [] 0)
          (Proc.ccons false (Proc.all [3] 0) Proc.cnil))) tSink []).2.2
        = [1, 2, 3]) ∧
    (∀ {α : Type u} (r next : Proc α), honest r = true → honest next = true →
      (run (Proc.ccons false r next) tSink []).1 = true ∧
      (run (Proc.ccons false r next) tSink []).2.2 = sem r ++ sem next) := by
  refine ⟨fun dst t => rfl, ⟨by decide, by decide⟩, ?_⟩
  intro α r next hr hn
  have hh : honest (Proc.ccons false r next) = true := by
    simp [honest, hr, hn]
  obtain ⟨e1, e2, e3, e4⟩ :=
    honest_run (pdepth (Proc.ccons false r next)) _ (Nat.le_refl _) hh tSink []
  rw [drive_tSink] at e1 e2
  refine ⟨e1, ?_⟩
  rw [e2]
  simp [sem]

/-- C7 witness: the general ordering clause at concrete `take`-free
stages. -/
theorem C7_concat_order_witness :
    honest (Proc.all ([4, 5] : List Int) 0) = true ∧
    honest (Proc.all ([6] : List Int) 0) = true ∧
    ((run (Proc.ccons false (Proc.all ([4, 5] : List Int) 0)
        (Proc.all [6] 0)) tSink []).1 = true ∧
      (run (Proc.ccons false (Proc.all ([4, 5] : List Int) 0)
        (Proc.all [6] 0)) tSink []).2.2
        = sem (Proc.all ([4, 5] : List Int) 0) ++ sem (Proc.all ([6] : List Int) 0)) :=
  ⟨by decide, by decide,
    C7_concat_order.2.2 (Proc.all [4, 5] 0) (Proc.all [6] 0)
      (by decide) (by decide)⟩

/-- C10: driving is read-only on the sources.  A single invocation with an
arbitrary stateful sink, and any sequence of invocations with
verdict-oracle sinks, leave the source sequence held by every `all` node
of the pipeline exactly as it was. -/
theorem C10_sources_unchanged :
    (∀ {α τ : Type u} (s : Proc α) (dst : α → τ → Bool × τ) (t : τ),
      srcs (run s dst t).2.1 = srcs s) ∧
    (∀ {α : Type u} (s : Proc α) (vs : List (α → List α → Bool)),
      srcs (drainState s vs) = srcs s) := by
  constructor
  · intro α τ s dst t
    exact run_srcs (pdepth s) s (Nat.le_refl _) dst t
  · intro α s vs
    induction vs generalizing s with
    | nil => rfl
    | cons v vs ih =>
      show srcs (drainState (run s (oSink v) []).2.1 vs) = srcs s
      rw [ih, run_srcs (pdepth s) s (Nat.le_refl _)]

/-- The element-counting wrapper of a sink: counts how many elements have
been delivered through it. -/
def kSink {α τ : Type u} (dst : α → τ → Bool × τ) :
    α → τ × Nat → Bool × (τ × Nat) :=
  fun x u => ((dst x u.1).1, ((dst x u.1).2, u.2 + 1))

/-- C4: with a positive remaining quota at entry, `take(n, R)` returns
`true` exactly when the wrapped ranger's call returned `true` or the quota
reached zero during the call — equivalently, exactly `n` elements were
delivered to the outer sink in this call (the sink's verdict on the last
one does not matter); in every other case it returns `false`. -/
theorem C4_take_flag {α τ : Type u} (n : Int) (r : Proc α)
    (dst : α → τ → Bool × τ) (t : τ) (hn : 0 < n) :
    (run (Proc.take n r) (kSink dst) (t, 0)).1 = true ↔
      ((run r (qSink (kSink dst)) ((t, 0), n)).1 = true ∨
        ((run r (qSink (kSink dst)) ((t, 0), n)).2.2.1.2 : Int) = n) := by
  have hq : ∀ u : (τ × Nat) × Int, u.2 = n - u.1.2 →
      ∀ x, ((qSink (kSink dst)) x u).2.2 = n - ((qSink (kSink dst)) x u).2.1.2 := by
    intro u hu x
    simp only [qSink, kSink]
    push_cast
    omega
  have hinv : (run r (qSink (kSink dst)) ((t, 0), n)).2.2.2
      = n - ((run r (qSink (kSink dst)) ((t, 0), n)).2.2.1.2 : Int) := by
    have := run_inv (pdepth r) r (Nat.le_refl _)
      (fun u : (τ × Nat) × Int => u.2 = n - (u.1.2 : Int))
      (qSink (kSink dst)) (fun x u hu => hq u hu x) ((t, 0), n) (by simp)
    exact this
  rw [run_take, if_neg (by omega)]
  show ((run r (qSink (kSink dst)) ((t, 0), n)).1
      || decide ((run r (qSink (kSink dst)) ((t, 0), n)).2.2.2 = 0)) = true ↔ _
  rw [Bool.or_eq_true, decide_eq_true_eq, hinv]
  constructor
  · rintro (h | h)
    · exact Or.inl h
    · exact Or.inr (by omega)
  · rintro (h | h)
    · exact Or.inl h
    · exact Or.inr (by omega)

/-- C4 witness: quota `1` over `[5,6]` with a sink that refuses the very
element that exhausts the quota — the wrapped call stops early yet the
invocation reports `true` because exactly one element was delivered. -/
theorem C4_take_flag_witness :
    (0 : Int) < 1 ∧
    ((run (Proc.take 1 (Proc.all ([5, 6] : List Int) 0))
        (kSink (oSink (fun _ _ => false))) ([], 0)).1 = true ↔
      ((run (Proc.all ([5, 6] : List Int) 0)
          (qSink (kSink (oSink (fun _ _ => false)))) (([], 0), 1)).1 = true ∨
        ((run (Proc.all ([5, 6] : List Int) 0)
          (qSink (kSink (oSink (fun _ _ => false)))) (([], 0), 1)).2.2.1.2 : Int)
          = 1)) :=
  ⟨by decide, C4_take_flag 1 (Proc.all [5, 6] 0) (oSink (fun _ _ => false)) []
    (by decide)⟩

/-- A pipeline placing `take` above a concatenation whose first stage is
itself a `take`: `take(1, concat(take(1, all [1]), all [2]))`.  The inner
`take` reports `true` on quota exhaustion even though the outer sink
refused its element, so the concatenation moves on to its second stage
within the same call. -/
def quotaPipe : Proc Int :=
  Proc.take 1 (Proc.ccons false (Proc.take 1 (Proc.all [1] 0))
    (Proc.ccons false (Proc.all [2] 0) Proc.cnil))

/-- C1: eager agreement when driven with an always-true sink.  As stated
over all pipelines the claim is false: `take(1, concat(take(1, all [1]),
all [2]))` delivers `[1, 2]` (and returns `true`), whereas the eager
composed computation yields `[1]` — the inner `take`'s `||(n==0)` converts
the outer sink's refusal into stage completion, so `concat` starts its
second stage inside the same call and the outer `take`'s quota check
(`n!=0` tested only after its own decrement) lets the extra element
through. -/
theorem C1_counterexample :
    (run quotaPipe tSink []).1 = true ∧
    (run quotaPipe tSink []).2.2 = [1, 2] ∧
    sem quotaPipe = [1] ∧
    ([1, 2] : List Int) ≠ [1] :=
  ⟨by decide, by decide, by decide, by decide⟩

/-- C1 (amended): eager agreement holds whenever no `take` sits below a
`concat` stage or below `unique` — any chain of `filter`/`transform`/`take`
over such stages ("tame" pipelines): driving with an always-true sink
returns `true` and delivers exactly the eager denotation.  The same holds
for `join` over `take`-free sub-rangers under the reference discipline,
and for the value discipline of `ranger_join` (fresh sub-ranger per
dereference). -/
theorem C1_eager_agreement :
    (∀ {α : Type u} (s : Proc α), tame s = true →
      (run s tSink []).1 = true ∧ (run s tSink []).2.2 = sem s) ∧
    (∀ {α : Type u} (J : JoinR α), honJR J →
      (runJR J tSink []).1 = true ∧ (runJR J tSink []).2.2 = semJR J) ∧
    (∀ {κ : Type (u + 1)} {α : Type u} (J : JoinV κ α), tame J.outer = true →
      (∀ c ∈ sem J.outer, honest (J.deref c) = true) →
      (∀ s0, J.pend = some s0 → honest s0 = true) →
      (runJV J tSink []).1 = true ∧
      (runJV J tSink []).2.2
        = semO J.pend ++ (sem J.outer).flatMap (fun c => sem (J.deref c))) := by
  refine ⟨?_, ?_, ?_⟩
  · intro α s ht
    obtain ⟨e1, e2, e3, e4, e5⟩ := tame_run s ht tSink []
    rw [drive_tSink] at e1
    refine ⟨e4 (by rw [drive_tSink]), ?_⟩
    rw [e1]
    simp
  · intro α J hJ
    obtain ⟨e1, e2, e3, e4⟩ := runJR_canon J hJ tSink []
    rw [drive_tSink] at e1 e2
    exact ⟨e1, by rw [e2]; simp⟩
  · intro κ α J h1 h2 h3
    obtain ⟨e1, e2⟩ := runJV_tSink J h1 h2 h3 []
    exact ⟨e1, by rw [e2]; simp⟩

/-- C1 witness: the amended statement at concrete inputs — a tame
filtered pipeline, a reference-discipline `join` over two sub-rangers, and
a value-discipline join over two lifted sub-sequences. -/
theorem C1_eager_agreement_witness :
    (tame (Proc.filter (fun x : Int => decide (0 < x)) (Proc.all [1, -2, 3] 0))
        = true ∧
      ((run (Proc.filter (fun x : Int => decide (0 < x)) (Proc.all [1, -2, 3] 0))
          tSink []).1 = true ∧
        (run (Proc.filter (fun x : Int => decide (0 < x)) (Proc.all [1, -2, 3] 0))
          tSink []).2.2
          = sem (Proc.filter (fun x : Int => decide (0 < x))
              (Proc.all [1, -2, 3] 0)))) ∧
    ((runJR (⟨none, Proc.all [Proc.all ([4, 5] : List Int) 0, Proc.all [6] 0] 0⟩
        : JoinR Int) tSink []).1 = true ∧
      (runJR (⟨none, Proc.all [Proc.all ([4, 5] : List Int) 0, Proc.all [6] 0] 0⟩
        : JoinR Int) tSink []).2.2
        = semJR ⟨none, Proc.all [Proc.all ([4, 5] : List Int) 0, Proc.all [6] 0] 0⟩) ∧
    ((runJV (⟨fun c => Proc.all c.down 0, none,
        Proc.all [ULift.up [7, 8], ULift.up [9]] 0⟩
        : JoinV (ULift (List Int)) Int) tSink []).1 = true ∧
      (runJV (⟨fun c => Proc.all c.down 0, none,
        Proc.all [ULift.up [7, 8], ULift.up [9]] 0⟩
        : JoinV (ULift (List Int)) Int) tSink []).2.2
        = semO (none : Option (Proc Int)) ++
          (sem (Proc.all [ULift.up ([7, 8] : List Int), ULift.up [9]] 0)).flatMap
            (fun c => sem (Proc.all c.down 0))) :=
  by
  have hJRsub : ∀ s' ∈ sem (Proc.all [Proc.all ([4, 5] : List Int) 0,
      Proc.all [6] 0] 0), honest s' = true := by
    intro s' hs
    cases hs with
    | head => rfl
    | tail _ hs =>
      cases hs with
      | head => rfl
      | tail _ hs => cases hs
  have hJVsub : ∀ c ∈ sem (Proc.all [ULift.up ([7, 8] : List Int),
      ULift.up [9]] 0),
      honest ((fun c : ULift (List Int) => Proc.all c.down 0) c) = true := by
    intro c hc
    cases hc with
    | head => rfl
    | tail _ hc =>
      cases hc with
      | head => rfl
      | tail _ hc => cases hc
  exact ⟨⟨by decide, C1_eager_agreement.1
      (Proc.filter (fun x : Int => decide (0 < x)) (Proc.all [1, -2, 3] 0))
      (by decide)⟩,
    ⟨C1_eager_agreement.2.1
      (⟨none, Proc.all [Proc.all ([4, 5] : List Int) 0, Proc.all [6] 0] 0⟩
        : JoinR Int)
      ⟨(fun s0 h => by cases h), by decide, hJRsub⟩,
    C1_eager_agreement.2.2
      (⟨fun c => Proc.all c.down 0, none,
        Proc.all [ULift.up [7, 8], ULift.up [9]] 0⟩
        : JoinV (ULift (List Int)) Int)
      (by decide) hJVsub (fun s0 h => by cases h)⟩⟩

/-- C2: resumption after an early stop.  As stated the claim is false:
with `take(1, concat(take(1, all [1]), all [2]))` and a sink that refuses
from the first delivered element on (`k = 1`), the first invocation
already delivers two elements ( `[1, 2]` — the element at position 2 is
delivered right after the refusal), and the follow-up invocation with an
always-true sink delivers `[]` rather than the claimed remainder `[2]`. -/
theorem C2_counterexample :
    (run quotaPipe (oSink (fun _ _ => false)) []).2.2 = [1, 2] ∧
    (run (run quotaPipe (oSink (fun _ _ => false)) []).2.1 tSink []).2.2 = [] ∧
    (run quotaPipe tSink []).2.2 = [1, 2] ∧
    ([1, 2] : List Int) ≠ [1] ∧ ([] : List Int) ≠ [2] :=
  ⟨by decide, by decide, by decide, by decide, by decide⟩

/-- C2 (amended): for tame pipelines (no `take` below a `concat` stage or
below `unique`) resumption is exact: after an invocation driven by any
verdict-oracle sink, re-invoking with an always-true sink returns `true`
and delivers exactly the elements not delivered in the first invocation —
the two logs concatenate to the full eager denotation, so nothing is
skipped and nothing is redelivered. -/
theorem C2_resume_exact {α : Type u} (s : Proc α) (ht : tame s = true)
    (v : α → List α → Bool) :
    (run (run s (oSink v) []).2.1 tSink []).1 = true ∧
    (run s (oSink v) []).2.2 ++ (run (run s (oSink v) []).2.1 tSink []).2.2
      = sem s := by
  obtain ⟨e1, e2, e3, e4, e5⟩ := tame_run s ht (oSink v) []
  obtain ⟨k, hk, h1, h2, h3⟩ := drive_oSink v (sem s) []
  obtain ⟨f1, f2, f3, f4, f5⟩ := tame_run (run s (oSink v) []).2.1 e3 tSink []
  refine ⟨f4 (by rw [drive_tSink]), ?_⟩
  rw [e1, h2, f1, drive_tSink]
  show [] ++ (sem s).take k ++ ([] ++ sem (run s (oSink v) []).2.1) = sem s
  rw [e2, h1]
  simp [List.take_append_drop]

/-- C2 witness: the amended statement at a concrete input — a filtered
pipeline interrupted by an always-refusing sink resumes with exactly the
undelivered remainder. -/
theorem C2_resume_exact_witness :
    tame (Proc.filter (fun x : Int => decide (x % 2 = 0)) (Proc.all [2, 3, 4] 0))
      = true ∧
    ((run (run (Proc.filter (fun x : Int => decide (x % 2 = 0))
        (Proc.all [2, 3, 4] 0)) (oSink (fun _ _ => false)) []).2.1 tSink []).1
        = true ∧
      (run (Proc.filter (fun x : Int => decide (x % 2 = 0))
          (Proc.all [2, 3, 4] 0)) (oSink (fun _ _ => false)) []).2.2 ++
        (run (run (Proc.filter (fun x : Int => decide (x % 2 = 0))
          (Proc.all [2, 3, 4] 0)) (oSink (fun _ _ => false)) []).2.1
          tSink []).2.2
        = sem (Proc.filter (fun x : Int => decide (x % 2 = 0))
            (Proc.all [2, 3, 4] 0))) :=
  ⟨by decide, C2_resume_exact _ (by decide) (fun _ _ => false)⟩

/-- A `ranger_join`-style state (value discipline) over the nested
sequence `[[1,2],[],[3]]`: every dereference of an outer cursor builds a
fresh `all` sub-ranger over the pointed-to sequence. -/
def vjoinEx : JoinV (ULift.{1} (List Int)) Int :=
  ⟨fun c => Proc.all c.down 0, none,
    Proc.all [ULift.up [1, 2], ULift.up [], ULift.up [3]] 0⟩

/-- C3: the pending sub-ranger after an early stop.  As stated the claim
is false for `ranger_join` (and any cursor whose dereference builds the
sub-ranger by value): `osrgr.emplace(*p)` re-dereferences the outer cursor
after the inner drive, so the emplaced pending sub-ranger is a fresh one,
not the partially-consumed one.  Over `[[1,2],[],[3]]` with a sink that
refuses from the first element on, the first invocation delivers `[1]` and
returns `false`, but the next invocation (always-true sink) delivers
`[1, 2, 3]` — redelivering `1` — instead of resuming at `[2, 3]`. -/
theorem C3_counterexample :
    (runJV vjoinEx (oSink (fun _ _ => false)) []).1 = false ∧
    (runJV vjoinEx (oSink (fun _ _ => false)) []).2.2 = [1] ∧
    (runJV (runJV vjoinEx (oSink (fun _ _ => false)) []).2.1 tSink []).2.2
      = [1, 2, 3] ∧
    ([1, 2, 3] : List Int) ≠ [2, 3] :=
  ⟨by decide, by decide, by decide, by decide⟩

/-- C3 (amended): under the reference discipline — the pending slot keeps
the very sub-ranger object that was driven, as `join` does when `*p`
yields a reference — resumption is exact for `take`-free states: after an
invocation driven by any verdict-oracle sink, re-invoking with an
always-true sink returns `true` and delivers exactly the undelivered
remainder of the flattened sequence, the pending sub-ranger first. -/
theorem C3_join_pending_resume {α : Type u} (J : JoinR α) (hJ : honJR J)
    (v : α → List α → Bool) :
    (runJR (runJR J (oSink v) []).2.1 tSink []).1 = true ∧
    (runJR J (oSink v) []).2.2 ++
        (runJR (runJR J (oSink v) []).2.1 tSink []).2.2
      = semJR J := by
  obtain ⟨e1, e2, e3, e4⟩ := runJR_canon J hJ (oSink v) []
  obtain ⟨k, hk, h1, h2, h3⟩ := drive_oSink v (semJR J) []
  obtain ⟨f1, f2, f3, f4⟩ := runJR_canon (runJR J (oSink v) []).2.1 e4 tSink []
  rw [drive_tSink] at f1 f2
  refine ⟨f1, ?_⟩
  rw [e2, h2, f2, e3, h1]
  simp [List.take_append_drop]

/-- C3 witness: the amended statement at a concrete input — a reference
join with a half-consumed pending sub-ranger and one sub-ranger to come,
interrupted by an always-refusing sink, resumes with exactly the
remainder. -/
theorem C3_join_pending_resume_witness :
    honJR (⟨some (Proc.all ([0, 1] : List Int) 1),
      Proc.all [Proc.all ([2] : List Int) 0] 0⟩ : JoinR Int) ∧
    ((runJR (runJR (⟨some (Proc.all ([0, 1] : List Int) 1),
        Proc.all [Proc.all ([2] : List Int) 0] 0⟩ : JoinR Int)
        (oSink (fun _ _ => false)) []).2.1 tSink []).1 = true ∧
      (runJR (⟨some (Proc.all ([0, 1] : List Int) 1),
        Proc.all [Proc.all ([2] : List Int) 0] 0⟩ : JoinR Int)
        (oSink (fun _ _ => false)) []).2.2 ++
        (runJR (runJR (⟨some (Proc.all ([0, 1] : List Int) 1),
          Proc.all [Proc.all ([2] : List Int) 0] 0⟩ : JoinR Int)
          (oSink (fun _ _ => false)) []).2.1 tSink []).2.2
        = semJR (⟨some (Proc.all ([0, 1] : List Int) 1),
          Proc.all [Proc.all ([2] : List Int) 0] 0⟩ : JoinR Int)) := by
  have hJ : honJR (⟨some (Proc.all ([0, 1] : List Int) 1),
      Proc.all [Proc.all ([2] : List Int) 0] 0⟩ : JoinR Int) := by
    refine ⟨?_, by decide, ?_⟩
    · intro s0 h
      cases h
      rfl
    · intro s' hs
      cases hs with
      | head => rfl
      | tail _ hs => cases hs
  exact ⟨hJ, C3_join_pending_resume _ hJ (fun _ _ => false)⟩

/-- `take`'s lifetime delivery bound for `take`-free wrapped rangers: over
any sequence of invocations the combined number of delivered elements
never exceeds the initial quota. -/
theorem take_lifetime {α : Type u} :
    ∀ (vs : List (α → List α → Bool)) (n : Int) (r : Proc α),
      honest r = true → 0 ≤ n →
      ((drainLogs (Proc.take n r) vs).map List.length).sum ≤ n.toNat := by
  intro vs
  induction vs with
  | nil =>
    intro n r _ _
    simp [drainLogs]
  | cons v vs ih =>
    intro n r hr hn
    show ((run (Proc.take n r) (oSink v) []).2.2.length ::
        (drainLogs (run (Proc.take n r) (oSink v) []).2.1 vs).map
          List.length).sum ≤ n.toNat
    by_cases h0 : n = 0
    · subst h0
      have hrun : run (Proc.take 0 r) (oSink v) []
          = (true, Proc.take 0 r, []) := by
        rw [run_take, if_pos rfl]
      rw [hrun]
      simpa using ih 0 r hr le_rfl
    · have hn' : 0 < n := lt_of_le_of_ne hn (Ne.symm h0)
      obtain ⟨k, hk, hlen, r', hst, hr'⟩ := take_invoke n r hr hn' v
      rw [hst, hlen]
      have h2 := ih (n - k) r' hr' (by omega)
      simp only [List.map_cons, List.sum_cons]
      omega

/-- C5: `take`'s quota accounting.  The lifetime bound as stated is false:
`take(1, concat(take(1, all [1]), all [2]))` delivers two elements in a
single invocation — the outer `take`'s own wrapped ranger pushes a second
element after the quota was exhausted (the inner `take` reported stage
completion on the refusal), and `n!=0` is only tested after the
unconditional `--n`, so the quota check cannot stop the extra element. -/
theorem C5_counterexample :
    (run quotaPipe tSink []).2.2 = [1, 2] ∧
    ((run quotaPipe tSink []).2.2.length = 2) ∧ ¬ (2 ≤ 1) :=
  ⟨by decide, by decide, by decide⟩

/-- C5 (amended): for a `take`-free wrapped ranger the claim holds:
`take(0, R)` never invokes `R`, touches neither its own state nor the
sink, and returns `true`; for `0 < n ≤ |R|`, a fresh `take(n, R)` driven
with an always-true sink returns `true`, delivers exactly the first `n`
elements, and leaves the wrapped ranger still holding everything past
position `n` (the `(n+1)`-th element is never consumed); and across any
sequence of invocations at most `n` elements are ever delivered. -/
theorem C5_take_boundary :
    (∀ {α τ : Type u} (r : Proc α) (dst : α → τ → Bool × τ) (t : τ),
      run (Proc.take 0 r) dst t = (true, Proc.take 0 r, t)) ∧
    (∀ {α : Type u} (n : Int) (r : Proc α), honest r = true → 0 < n →
      n.toNat ≤ (sem r).length →
      (run (Proc.take n r) tSink []).1 = true ∧
      (run (Proc.take n r) tSink []).2.2 = (sem r).take n.toNat ∧
      ∃ r', (run (Proc.take n r) tSink []).2.1 = Proc.take 0 r' ∧
        sem r' = (sem r).drop n.toNat ∧ honest r' = true) ∧
    (∀ {α : Type u} (n : Int) (r : Proc α), honest r = true → 0 ≤ n →
      ∀ vs : List (α → List α → Bool),
        ((drainLogs (Proc.take n r) vs).map List.length).sum ≤ n.toNat) := by
  refine ⟨?_, ?_, ?_⟩
  · intro α τ r dst t
    rw [run_take, if_pos rfl]
  · intro α n r hr hn hlen
    have hne : ¬ n = 0 := by omega
    obtain ⟨e1, e2, e3, e4⟩ :=
      honest_run (pdepth r) r (Nat.le_refl _) hr (qSink tSink) ([], n)
    obtain ⟨k, hk1, hk2, hk3, heq, hke⟩ := drive_qpos tSink (sem r) [] n hn
    rw [drive_tSink] at hke
    have hkn : k = n.toNat := by
      have := hke rfl
      rw [List.length_take] at this
      omega
    subst hkn
    have hz : n - (n.toNat : Int) = 0 := by omega
    rw [drive_tSink, hz] at heq
    have hA2 : (run r (qSink tSink) ([], n)).2.2
        = ((sem r).take n.toNat, 0) := by
      rw [e2, heq]
      simp
    refine ⟨?_, ?_, (run r (qSink tSink) ([], n)).2.1, ?_, ?_, e4⟩
    · rw [run_take, if_neg hne]
      show ((run r (qSink tSink) ([], n)).1
          || decide ((run r (qSink tSink) ([], n)).2.2.2 = 0)) = true
      rw [hA2]
      simp
    · rw [run_take, if_neg hne]
      show (run r (qSink tSink) ([], n)).2.2.1 = (sem r).take n.toNat
      rw [hA2]
    · rw [run_take, if_neg hne]
      show Proc.take (run r (qSink tSink) ([], n)).2.2.2
          (run r (qSink tSink) ([], n)).2.1 = _
      rw [hA2]
    · rw [e3, heq]
      simp
  · intro α n r hr hn vs
    exact take_lifetime vs n r hr hn

/-- C5 witness: the amended statement at concrete inputs — quota `2` over
the three-element source `[1,2,3]`, including one interrupted and one
draining invocation for the lifetime bound. -/
theorem C5_take_boundary_witness :
    (honest (Proc.all ([1, 2, 3] : List Int) 0) = true ∧ (0 : Int) < 2 ∧
      (2 : Int).toNat ≤ (sem (Proc.all ([1, 2, 3] : List Int) 0)).length ∧
      ((run (Proc.take 2 (Proc.all ([1, 2, 3] : List Int) 0)) tSink []).1
          = true ∧
        (run (Proc.take 2 (Proc.all ([1, 2, 3] : List Int) 0)) tSink []).2.2
          = (sem (Proc.all ([1, 2, 3] : List Int) 0)).take (2 : Int).toNat ∧
        ∃ r', (run (Proc.take 2 (Proc.all ([1, 2, 3] : List Int) 0))
            tSink []).2.1 = Proc.take 0 r' ∧
          sem r' = (sem (Proc.all ([1, 2, 3] : List Int) 0)).drop
            (2 : Int).toNat ∧ honest r' = true)) ∧
    (((drainLogs (Proc.take 2 (Proc.all ([1, 2, 3] : List Int) 0))
        [fun _ _ => false, fun _ _ => true, fun _ _ => true]).map
          List.length).sum ≤ (2 : Int).toNat) :=
  ⟨⟨by decide, by decide, by decide,
    C5_take_boundary.2.1 2 (Proc.all [1, 2, 3] 0) (by decide) (by decide)
      (by decide)⟩,
    C5_take_boundary.2.2 2 (Proc.all [1, 2, 3] 0) (by decide) (by decide)
      [fun _ _ => false, fun _ _ => true, fun _ _ => true]⟩

/-- A reference `join` whose outer ranger is wrapped in `take(1, ·)`, over
the nested sequence `[[10,20],[30]]`. -/
def tjoinEx : JoinR Int :=
  ⟨none, Proc.take 1 (Proc.all [Proc.all [10, 20] 0, Proc.all [30] 0] 0)⟩

/-- C8: re-invocation after `true` is a no-op.  As stated over every
combinator of the design the claim is false for `join`: when the outer
ranger is `take(1, all([all([10,20]), all([30])]))` and the sink refuses
every element, the first invocation returns `true` (the outer `take`'s
quota is exhausted by the refused sub-ranger, converting the stop into
completion) while the refused sub-ranger sits pending with `20` still to
deliver — and the next invocation delivers `[20]` instead of nothing. -/
theorem C8_counterexample :
    (runJR tjoinEx (oSink (fun _ _ => false)) []).1 = true ∧
    (runJR (runJR tjoinEx (oSink (fun _ _ => false)) []).2.1 tSink []).2.2
      = [20] ∧
    ([20] : List Int) ≠ [] :=
  ⟨by decide, by decide, by decide⟩

/-- C8 (amended): re-invocation after `true` is a no-op for every
`all`/`filter`/`transform`/`take`/`concat`/`unique` pipeline regardless of
nesting — once an invocation returned `true`, every further invocation
with any sink returns `true`, leaves the sink state untouched (zero
deliveries), and preserves exhaustion; for `join` it holds when the outer
ranger and all sub-rangers are `take`-free. -/
theorem C8_reinvoke_noop :
    (∀ {α τ : Type u} (s : Proc α) (dst : α → τ → Bool × τ) (t : τ),
      (run s dst t).1 = true →
      ∀ {τ' : Type u} (dst' : α → τ' → Bool × τ') (t' : τ'),
        (run (run s dst t).2.1 dst' t').1 = true ∧
        (run (run s dst t).2.1 dst' t').2.2 = t' ∧
        exh (run (run s dst t).2.1 dst' t').2.1 = true) ∧
    (∀ {α : Type u} (J : JoinR α), honJR J →
      ∀ {τ : Type u} (dst : α → τ → Bool × τ) (t : τ),
        (runJR J dst t).1 = true →
        ∀ {τ' : Type u} (dst' : α → τ' → Bool × τ') (t' : τ'),
          (runJR (runJR J dst t).2.1 dst' t').1 = true ∧
          (runJR (runJR J dst t).2.1 dst' t').2.2 = t' ∧
          semJR (runJR (runJR J dst t).2.1 dst' t').2.1 = []) := by
  constructor
  · intro α τ s dst t h τ' dst' t'
    exact exh_run (run s dst t).2.1
      (flag_exh (pdepth s) s (Nat.le_refl _) dst t h) dst' t'
  · intro α J hJ τ dst t h τ' dst' t'
    obtain ⟨e1, e2, e3, e4⟩ := runJR_canon J hJ dst t
    have hrest : semJR (runJR J dst t).2.1 = [] := by
      rw [e3]
      exact drive_flag_rest dst (semJR J) t (by rw [← e1]; exact h)
    obtain ⟨f1, f2, f3, f4⟩ := runJR_canon (runJR J dst t).2.1 e4 dst' t'
    rw [hrest, drive_nil] at f1 f2 f3
    exact ⟨f1, f2, f3⟩

/-- C8 witness: both clauses at concrete inputs — a filtered pipeline
drained by one always-true invocation, then re-invoked with an
always-refusing sink; and a reference `join` drained and re-invoked the
same way. -/
theorem C8_reinvoke_noop_witness :
    ((run (Proc.filter (fun x : Int => decide (0 < x)) (Proc.all [1, -2] 0))
        tSink []).1 = true ∧
      ((run (run (Proc.filter (fun x : Int => decide (0 < x))
          (Proc.all [1, -2] 0)) tSink []).2.1
          (oSink (fun _ _ => false)) []).1 = true ∧
        (run (run (Proc.filter (fun x : Int => decide (0 < x))
          (Proc.all [1, -2] 0)) tSink []).2.1
          (oSink (fun _ _ => false)) []).2.2 = [] ∧
        exh (run (run (Proc.filter (fun x : Int => decide (0 < x))
          (Proc.all [1, -2] 0)) tSink []).2.1
          (oSink (fun _ _ => false)) []).2.1 = true)) ∧
    (honJR (⟨none, Proc.all [Proc.all ([11] : List Int) 0] 0⟩ : JoinR Int) ∧
      (runJR (⟨none, Proc.all [Proc.all ([11] : List Int) 0] 0⟩ : JoinR Int)
        tSink []).1 = true ∧
      ((runJR (runJR (⟨none, Proc.all [Proc.all ([11] : List Int) 0] 0⟩
          : JoinR Int) tSink []).2.1 (oSink (fun _ _ => false)) []).1 = true ∧
        (runJR (runJR (⟨none, Proc.all [Proc.all ([11] : List Int) 0] 0⟩
          : JoinR Int) tSink []).2.1 (oSink (fun _ _ => false)) []).2.2 = [] ∧
        semJR (runJR (runJR (⟨none, Proc.all [Proc.all ([11] : List Int) 0] 0⟩
          : JoinR Int) tSink []).2.1 (oSink (fun _ _ => false)) []).2.1
          = [])) := by
  have hJ : honJR (⟨none, Proc.all [Proc.all ([11] : List Int) 0] 0⟩
      : JoinR Int) := by
    refine ⟨(fun s0 h => by cases h), by decide, ?_⟩
    intro s' hs
    cases hs with
    | head => rfl
    | tail _ hs => cases hs
  exact ⟨⟨by decide, C8_reinvoke_noop.1
      (Proc.filter (fun x : Int => decide (0 < x)) (Proc.all [1, -2] 0))
      tSink [] (by decide) (oSink (fun _ _ => false)) []⟩,
    ⟨hJ, by decide, C8_reinvoke_noop.2
      (⟨none, Proc.all [Proc.all ([11] : List Int) 0] 0⟩ : JoinR Int) hJ
      tSink [] (by decide) (oSink (fun _ _ => false)) []⟩⟩

/-- A filter predicate that fails on the value `2` and accepts anything
else. -/
def predE : Int → Except Unit Bool :=
  fun x => if x = 2 then .error () else .ok true

/-- A fallible-signature logging sink that always accepts. -/
def lsinkE : Int → List Int → List Int × Except Unit Bool :=
  fun x l => (l ++ [x], .ok true)

/-- An equality comparison that reports value equality and never fails. -/
def beqE : Int → Int → Except Unit Bool :=
  fun a b => .ok (decide (a = b))

/-- C9: state after a callable failure.  As stated the claim is false:
re-invoking after a failure does not resume as if the failure had been an
early `false` stop.  An early `false` stop commits the source adaptor's
position (`first=it` on the refusal path), whereas a failure unwinds past
`first=it`, leaving the position at its invocation-entry value — so
elements already delivered in the failing invocation are redelivered.
With `filter(predE, all([1,2]))`, where `predE` fails on `2`: the first
invocation delivers `[1]` and propagates the failure with the state left
at entry, and the re-invocation delivers `[1]` again instead of the `[]`
an early-`false`-stop resumption would deliver. -/
theorem C9_counterexample :
    (runE (.filterF predE (.allF [1, 2] 0)) lsinkE []).2.2 = .error () ∧
    (runE (.filterF predE (.allF [1, 2] 0)) lsinkE []).2.1 = [1] ∧
    (runE (.filterF predE (.allF [1, 2] 0)) lsinkE []).1
      = .filterF predE (.allF [1, 2] 0) ∧
    (runE (runE (.filterF predE (.allF [1, 2] 0)) lsinkE []).1
      lsinkE []).2.1 = [1] ∧
    ([1] : List Int) ≠ [] :=
  ⟨rfl, rfl, rfl, rfl, by decide⟩

/-- C9 (amended): a callable failure propagates out through every nested
combinator as-is, and each combinator keeps exactly the state its code had
written before the failing call — which is not the early-`false`-stop
state.  Specifically: the source adaptor's position reverts to its
invocation-entry value (elements delivered before the failure in the same
invocation will be redelivered), as proved here for a failing filter
predicate over `all` in general; `take`'s quota keeps every decrement made
before the failure (quota `5` becomes `3` after two elements were pushed,
even though the failure discarded the second); and `unique`'s remembered
cursor keeps an advancement made before a downstream callable failure
(cursor `some 1` becomes `some 2` although the element `2` was never
delivered). -/
theorem C9_callable_failure :
    (∀ {α ε τ : Type u} (pred : α → Except ε Bool) (S : List α) (i : Nat)
        (dst : α → τ → τ × Except ε Bool) (t : τ) (er : ε),
      (runE (.filterF pred (.allF S i)) dst t).2.2 = .error er →
      (runE (.filterF pred (.allF S i)) dst t).1
        = .filterF pred (.allF S i)) ∧
    runE (.filterF predE (.takeF 5 (.allF [1, 2, 9] 0))) lsinkE []
      = (.filterF predE (.takeF 3 (.allF [1, 2, 9] 0)), [1], .error ()) ∧
    runE (.filterF predE (.uniqueF beqE (some 1) (.allF [1, 2] 0))) lsinkE []
      = (.filterF predE (.uniqueF beqE (some 2) (.allF [1, 2] 0)), [],
        .error ()) := by
  refine ⟨?_, rfl, rfl⟩
  intro α ε τ pred S i dst t er h
  exact runE_filter_all_err pred S i dst t er h

/-- C9 witness: the generic entry-state clause at a concrete input — the
failing invocation over `[1,2]` indeed errors, and the theorem yields the
entry state. -/
theorem C9_callable_failure_witness :
    (runE (.filterF predE (.allF [1, 2] 0)) lsinkE [7]).2.2 = .error () ∧
    (runE (.filterF predE (.allF [1, 2] 0)) lsinkE [7]).1
      = .filterF predE (.allF [1, 2] 0) :=
  ⟨rfl, C9_callable_failure.1 predE [1, 2] 0 lsinkE [7] () rfl⟩

end Transrangers
